import Mathlib

/-!
Verification of the relstorage segmented-LRU cache core and adapter logic.

The cache core (SegmentedMap / `SizedLRUMapping`, the `LocalClient` facade and
the persistence codec) is exercised by `relstorage/cache/tests/benchmarks.py`;
its implementation is modelled here from the specification's description of
the data model and operations.  The adapter claims are embedded from
`src/relstorage/adapters/adapter.py`.
-/

namespace RelCache

/-- Modelled from the spec: a cache record of the SegmentedMap.  `key` and
`value` are opaque byte sequences, `raw_size` is the byte count used for
budget accounting, `frequency` is a monotonic counter incremented on each
hit and preserved across overwrites. -/
structure Entry where
  key : List Nat
  value : List Nat
  raw_size : Nat
  frequency : Nat
deriving DecidableEq

/-- Hit and miss counters of the StatsCollector. -/
structure Stats where
  hits : Nat
  misses : Nat
deriving DecidableEq

/-- Modelled from the spec: configuration of one bucket.  `capacity` is the
total byte budget, `protTarget` the Protected segment's target size
(about 80 percent of capacity), `objectMax` the largest value the client
ever caches, `warmThreshold` the frequency above which a reloaded entry is
re-inserted directly into Protected. -/
structure Config where
  capacity : Nat
  protTarget : Nat
  objectMax : Nat
  warmThreshold : Nat
deriving DecidableEq

/-- Total `raw_size` of a segment, kept as a list in recency order with the
least recently used entry at the head. -/
def segSize (l : List Entry) : Nat := (l.map Entry.raw_size).sum

/-- Modelled from the spec: one SegmentedMap bucket, two recency-ordered
segments over a shared byte budget.  The head of each list is the least
recently used entry (next eviction or demotion victim); insertion and
move-to-front append at the tail. -/
structure Bucket where
  probation : List Entry
  prot : List Entry
  stats : Stats
deriving DecidableEq

def Bucket.empty : Bucket := ⟨[], [], ⟨0, 0⟩⟩

def Bucket.entries (b : Bucket) : List Entry := b.probation ++ b.prot

def Bucket.size (b : Bucket) : Nat := segSize b.probation + segSize b.prot

def Bucket.keys (b : Bucket) : List (List Nat) := b.entries.map Entry.key

def probKeys (b : Bucket) : List (List Nat) := b.probation.map Entry.key

def protKeys (b : Bucket) : List (List Nat) := b.prot.map Entry.key

/-- The first resident entry with the given key, searching Probation then
Protected. -/
def lookupEntry (k : List Nat) (b : Bucket) : Option Entry :=
  b.entries.find? (fun e => decide (e.key = k))

/-- The pair `(k, v)` is resident in the bucket. -/
def pairResident (k v : List Nat) (b : Bucket) : Prop :=
  ∃ e ∈ b.entries, e.key = k ∧ e.value = v

instance (k v : List Nat) (b : Bucket) : Decidable (pairResident k v b) := by
  unfold pairResident; infer_instance

/-- Remove the first entry carrying the given key, if any. -/
def eraseKey (k : List Nat) : List Entry → List Entry
  | [] => []
  | e :: rest => if e.key = k then rest else e :: eraseKey k rest

/-- Micro-events of the eviction loop: an eviction always pops the Probation
head, a demotion moves the Protected head into Probation. -/
inductive Ev where
  | evicted (k : List Nat)
  | demoted (k : List Nat)
deriving DecidableEq

/-- Fuelled body of the eviction loop; each round either pops the Probation
head or demotes the Protected head, so one fuel unit per entry (two for a
Protected entry) always suffices. -/
def evictFuel : Nat → Nat → List Entry → List Entry → List Entry × List Entry × List Ev
  | 0, _, _, _ => ([], [], [])
  | fuel + 1, cap, prob, prot =>
    if segSize prob + segSize prot ≤ cap then (prob, prot, [])
    else
      match prob with
      | e :: rest =>
          let r := evictFuel fuel cap rest prot
          (r.1, r.2.1, Ev.evicted e.key :: r.2.2)
      | [] =>
        match prot with
        | e :: rest =>
            let r := evictFuel fuel cap [e] rest
            (r.1, r.2.1, Ev.demoted e.key :: r.2.2)
        | [] => ([], [], [])

/-- Modelled from the spec: the eviction loop run at the end of every insert.
While the combined size exceeds the capacity it pops the Probation head
(least recently used); if Probation is empty it first demotes the Protected
head into Probation and retries.  The chronological event log is returned
alongside the two segments. -/
def evictLog (cap : Nat) (prob prot : List Entry) :
    List Entry × List Entry × List Ev :=
  evictFuel (prob.length + 2 * prot.length + 1) cap prob prot

/-- Fuelled body of the demotion loop. -/
def demoteFuel : Nat → Nat → List Entry → List Entry → List Entry × List Entry
  | 0, _, prob, prot => (prob, prot)
  | fuel + 1, target, prob, prot =>
    if segSize prot ≤ target then (prob, prot)
    else
      match prot with
      | [] => (prob, [])
      | e :: rest => demoteFuel fuel target (prob ++ [e]) rest

/-- Modelled from the spec: after a promotion, while the Protected segment
exceeds its target size its head (least recently used) is demoted to the
Probation tail.  No entry is dropped. -/
def demoteUntil (target : Nat) (prob prot : List Entry) :
    List Entry × List Entry :=
  demoteFuel (prot.length + 1) target prob prot

theorem evictFuel_zero (cap : Nat) (prob prot : List Entry) :
    evictFuel 0 cap prob prot = ([], [], []) := rfl

theorem evictFuel_succ (n cap : Nat) (prob prot : List Entry) :
    evictFuel (n + 1) cap prob prot =
      (if segSize prob + segSize prot ≤ cap then (prob, prot, [])
      else
        match prob with
        | e :: rest =>
            let r := evictFuel n cap rest prot
            (r.1, r.2.1, Ev.evicted e.key :: r.2.2)
        | [] =>
          match prot with
          | e :: rest =>
              let r := evictFuel n cap [e] rest
              (r.1, r.2.1, Ev.demoted e.key :: r.2.2)
          | [] => ([], [], [])) := rfl

theorem demoteFuel_zero (t : Nat) (prob prot : List Entry) :
    demoteFuel 0 t prob prot = (prob, prot) := rfl

theorem demoteFuel_succ (n t : Nat) (prob prot : List Entry) :
    demoteFuel (n + 1) t prob prot =
      (if segSize prot ≤ t then (prob, prot)
      else
        match prot with
        | [] => (prob, [])
        | e :: rest => demoteFuel n t (prob ++ [e]) rest) := rfl

/-- Modelled from the spec: `get` on a bucket.  A hit increments the entry's
frequency and moves it to the tail (most recent) of its segment; a hit on a
Probation entry promotes it to Protected, demoting Protected overflow back
to Probation.  A miss mutates nothing but the miss counter. -/
def Bucket.get (cfg : Config) (k : List Nat) (b : Bucket) :
    Option (List Nat) × Bucket :=
  match b.probation.find? (fun e => decide (e.key = k)) with
  | some e =>
      let e2 : Entry := { e with frequency := e.frequency + 1 }
      let p := demoteUntil cfg.protTarget (eraseKey k b.probation) (b.prot ++ [e2])
      (some e.value,
        { probation := p.1, prot := p.2,
          stats := { hits := b.stats.hits + 1, misses := b.stats.misses } })
  | none =>
    match b.prot.find? (fun e => decide (e.key = k)) with
    | some e =>
        let e2 : Entry := { e with frequency := e.frequency + 1 }
        (some e.value,
          { probation := b.probation, prot := eraseKey k b.prot ++ [e2],
            stats := { hits := b.stats.hits + 1, misses := b.stats.misses } })
    | none =>
        (none, { b with stats := { hits := b.stats.hits, misses := b.stats.misses + 1 } })

/-- Modelled from the spec: `set` on a bucket.  A single entry larger than
the whole capacity is silently refused.  Otherwise the new entry replaces
any entry with the same key, enters Probation at the most recent end with
the accumulated frequency preserved, and the eviction loop restores the
byte bound before the operation returns. -/
def Bucket.set (cfg : Config) (k v : List Nat) (b : Bucket) : Bucket :=
  if cfg.capacity < v.length then b
  else
    let oldFreq := match lookupEntry k b with
      | some e => e.frequency
      | none => 0
    let e : Entry := ⟨k, v, v.length, oldFreq⟩
    let r := evictLog cfg.capacity (eraseKey k b.probation ++ [e]) (eraseKey k b.prot)
    { probation := r.1, prot := r.2.1, stats := b.stats }

/-- Modelled from the spec: batch lookup, evaluated key by key with the
same promotion logic as `get`; missing keys are simply absent from the
result. -/
def Bucket.getMulti (cfg : Config) (ks : List (List Nat)) (b : Bucket) :
    List (List Nat × List Nat) × Bucket :=
  match ks with
  | [] => ([], b)
  | k :: rest =>
    let r := Bucket.get cfg k b
    let rr := Bucket.getMulti cfg rest r.2
    match r.1 with
    | some v => ((k, v) :: rr.1, rr.2)
    | none => (rr.1, rr.2)

/-- Modelled from the spec: the CacheClient facade over one bucket
(compression disabled). -/
structure Client where
  bucket : Bucket
deriving DecidableEq

def Client.empty : Client := ⟨Bucket.empty⟩

/-- Modelled from the spec: client `set` silently refuses any value larger
than the maximum cacheable object size. -/
def Client.set (cfg : Config) (k v : List Nat) (c : Client) : Client :=
  if cfg.objectMax < v.length then c else ⟨Bucket.set cfg k v c.bucket⟩

def Client.get (cfg : Config) (k : List Nat) (c : Client) :
    Option (List Nat) × Client :=
  let r := Bucket.get cfg k c.bucket
  (r.1, ⟨r.2⟩)

/-! ### Persistence codec, modelled from the spec's snapshot file layout -/

def MAGIC : Nat := 202

def VERSION : Nat := 1

/-- One snapshot record: key length, key bytes, value length, value bytes,
frequency. -/
def serializeEntry (e : Entry) : List Nat :=
  e.key.length :: (e.key ++ e.value.length :: (e.value ++ [e.frequency]))

def serializeEntries : List Entry → List Nat
  | [] => []
  | e :: rest => serializeEntry e ++ serializeEntries rest

/-- Content checksum over the record stream. -/
def checksum (l : List Nat) : Nat := l.sum % 2 ^ 32

/-- Modelled from the spec: only entries read at least once — positive
accumulated frequency — are persisted. -/
def savedEntries (b : Bucket) : List Entry :=
  b.entries.filter (fun e => decide (1 ≤ e.frequency))

/-- Modelled from the spec: header (magic, format version, compression flag,
entry count), one record per persisted entry, then the checksum. -/
def save (b : Bucket) : List Nat :=
  MAGIC :: VERSION :: 0 :: (savedEntries b).length ::
    (serializeEntries (savedEntries b) ++ [checksum (serializeEntries (savedEntries b))])

/-- Parse one record; `none` when a length field is inconsistent with the
remaining stream. -/
def parseEntry : List Nat → Option (Entry × List Nat)
  | [] => none
  | klen :: rest =>
    if klen ≤ rest.length then
      match rest.drop klen with
      | [] => none
      | vlen :: r2 =>
        if vlen ≤ r2.length then
          match r2.drop vlen with
          | [] => none
          | freq :: r3 => some (⟨rest.take klen, r2.take vlen, (r2.take vlen).length, freq⟩, r3)
        else none
    else none

def parseEntries : Nat → List Nat → Option (List Entry × List Nat)
  | 0, rest => some ([], rest)
  | n + 1, rest =>
    (parseEntry rest).bind fun er =>
      (parseEntries n er.2).bind fun esr => some (er.1 :: esr.1, esr.2)

/-- Modelled from the spec: whole-file validation before any mutation.
The header is checked, every record must parse with its length fields
consistent, exactly the checksum must remain, and the checksum must match
the record stream; otherwise the file yields nothing. -/
def parseFile (file : List Nat) : Option (List Entry) :=
  match file with
  | m :: ver :: _c :: n :: rest =>
    if m = MAGIC then
      if ver = VERSION then
        match parseEntries n rest with
        | some (es, [ck]) => if ck = checksum rest.dropLast then some es else none
        | _ => none
      else none
    else none
  | _ => none

/-- Modelled from the spec: re-insert one reloaded record.  A record whose
frequency exceeds the warm threshold enters Protected directly, others enter
Probation; the target and capacity bounds are restored afterwards. -/
def insertLoaded (cfg : Config) (e : Entry) (b : Bucket) : Bucket :=
  if cfg.capacity < e.raw_size then b
  else
    let prob := eraseKey e.key b.probation
    let prot := eraseKey e.key b.prot
    if cfg.warmThreshold < e.frequency then
      let d := demoteUntil cfg.protTarget prob (prot ++ [e])
      let r := evictLog cfg.capacity d.1 d.2
      { probation := r.1, prot := r.2.1, stats := b.stats }
    else
      let r := evictLog cfg.capacity (prob ++ [e]) prot
      { probation := r.1, prot := r.2.1, stats := b.stats }

def loadEntries (cfg : Config) : List Entry → Bucket → Bucket
  | [], b => b
  | e :: rest, b => loadEntries cfg rest (insertLoaded cfg e b)

/-- Modelled from the spec: `load` validates the whole file first; on any
checksum or structural failure it reports failure and populates nothing. -/
def load (cfg : Config) (file : List Nat) (b : Bucket) : Bool × Bucket :=
  match parseFile file with
  | none => (false, b)
  | some es => (true, loadEntries cfg es b)

/-! ### Operation traces -/

inductive Op where
  | get (k : List Nat)
  | set (k v : List Nat)
deriving DecidableEq

def applyOp (cfg : Config) (op : Op) (b : Bucket) : Bucket :=
  match op with
  | .get k => (Bucket.get cfg k b).2
  | .set k v => Bucket.set cfg k v b

def applyOps (cfg : Config) : List Op → Bucket → Bucket
  | [], b => b
  | op :: rest, b => applyOps cfg rest (applyOp cfg op b)

/-- The trace ever issues a `get` for the key. -/
def everGet : List Op → List Nat → Bool
  | [], _ => false
  | Op.get k2 :: rest, k => if k2 = k then true else everGet rest k
  | Op.set _ _ :: rest, k => everGet rest k

/-- The key was read after its last write in the trace. -/
def hitAfterLastWrite (ops : List Op) (k : List Nat) : Bool :=
  ops.foldl (fun acc op => match op with
    | .set k2 _ => if k2 = k then false else acc
    | .get k2 => if k2 = k then true else acc) false

end RelCache

namespace RelAdapter

/-- Shallow model of `persistent.timestamp.TimeStamp` construction in
`relstorage._util.timestamp_at_unixtime`: the minute count fills the high
32 bits, the fraction of the minute the low 32 bits. -/
def timestamp_at_unixtime (now : Nat) : Nat :=
  (now / 60) * 2 ^ 32 + ((now % 60) * 2 ^ 32) / 60

/-- Shallow model of `TimeStamp.laterThan`: the stamp itself when it is
already strictly later than the other, else the smallest stamp after the
other. -/
def laterThan (stamp other : Nat) : Nat :=
  if other < stamp then stamp else other + 1

/-- Embedding of `AbstractAdapter.lock_database_and_choose_next_tid`: the
candidate stamp derived from the wall clock is advanced past the stored
last committed tid before being registered and returned. -/
def lock_database_and_choose_next_tid (now lastTid : Nat) : Nat :=
  laterThan (timestamp_at_unixtime now) lastTid

/-- Embedding of the readCurrent comparison loop of
`AbstractAdapter.lock_objects_and_detect_conflicts`: the first oid whose
current tid (0 when absent) differs from the expected tid, if any. -/
def detectReadConflict : List (Nat × Nat) → (Nat → Option Nat) → Option (Nat × Nat × Nat)
  | [], _ => none
  | (oid, expect) :: rest, current =>
    let actual := (current oid).getD 0
    if actual = expect then detectReadConflict rest current
    else some (oid, actual, expect)

/-- Embedding of `AbstractAdapter.lock_objects_and_detect_conflicts`: a
readCurrent mismatch raises `ReadConflictError` before the conflict
detection query runs; otherwise the mover's detected conflicts are
returned. -/
def lock_objects_and_detect_conflicts
    (readCurrent : List (Nat × Nat)) (current : Nat → Option Nat)
    (conflicts : List (Nat × Nat × Nat)) :
    Except (Nat × Nat × Nat) (List (Nat × Nat × Nat)) :=
  match detectReadConflict readCurrent current with
  | some c => Except.error c
  | none => Except.ok conflicts

end RelAdapter

namespace RelAdapter

/-- The mismatch scan returns `none` exactly when every readCurrent oid has
its expected tid. -/
theorem detectReadConflict_eq_none_iff (read : List (Nat × Nat))
    (current : Nat → Option Nat) :
    detectReadConflict read current = none ↔
      ∀ p ∈ read, (current p.1).getD 0 = p.2 := by
  induction read with
  | nil => simp [detectReadConflict]
  | cons hd tl ih =>
      obtain ⟨oid, expect⟩ := hd
      by_cases h : (current oid).getD 0 = expect
      · simp [detectReadConflict, h, ih]
      · simp [detectReadConflict, h]

end RelAdapter

/-- C9: for every prior committed transaction id and every wall-clock time,
`lock_database_and_choose_next_tid` returns a transaction id strictly
greater than the stored last tid, because the candidate stamp derived from
the current time is advanced with `laterThan` past the last tid; hence
consecutively allocated tids are strictly increasing. -/
theorem c9_next_tid_strictly_greater :
    ∀ (now lastTid : Nat),
      lastTid < RelAdapter.lock_database_and_choose_next_tid now lastTid := by
  intro now lastTid
  unfold RelAdapter.lock_database_and_choose_next_tid RelAdapter.laterThan
  split <;> omega

/-- C10: `lock_objects_and_detect_conflicts` raises `ReadConflictError`
exactly when some readCurrent oid's actual tid (0 when absent) differs from
the expected tid; on a mismatch the result does not depend on the mover's
conflict-detection query, and without a mismatch the detected conflicts are
returned. -/
theorem c10_read_current_conflict_detection :
    ∀ (read : List (Nat × Nat)) (current : Nat → Option Nat)
      (conflicts : List (Nat × Nat × Nat)),
      ((∃ p ∈ read, (current p.1).getD 0 ≠ p.2) ↔
        ∃ c, RelAdapter.lock_objects_and_detect_conflicts read current conflicts =
          Except.error c) ∧
      ((∀ p ∈ read, (current p.1).getD 0 = p.2) →
        RelAdapter.lock_objects_and_detect_conflicts read current conflicts =
          Except.ok conflicts) ∧
      ((∃ p ∈ read, (current p.1).getD 0 ≠ p.2) →
        ∀ other : List (Nat × Nat × Nat),
          RelAdapter.lock_objects_and_detect_conflicts read current conflicts =
            RelAdapter.lock_objects_and_detect_conflicts read current other) := by
  intro read current conflicts
  have hiff := RelAdapter.detectReadConflict_eq_none_iff read current
  refine ⟨?_, ?_, ?_⟩
  · constructor
    · intro h
      rcases hd : RelAdapter.detectReadConflict read current with _ | c
      · exfalso
        obtain ⟨p, hp, hne⟩ := h
        exact hne (hiff.mp hd p hp)
      · exact ⟨c, by simp [RelAdapter.lock_objects_and_detect_conflicts, hd]⟩
    · intro ⟨c, hc⟩
      by_contra hall
      push_neg at hall
      have hnone := hiff.mpr hall
      simp [RelAdapter.lock_objects_and_detect_conflicts, hnone] at hc
  · intro hall
    have hnone := hiff.mpr hall
    simp [RelAdapter.lock_objects_and_detect_conflicts, hnone]
  · intro h other
    rcases hd : RelAdapter.detectReadConflict read current with _ | c
    · exfalso
      obtain ⟨p, hp, hne⟩ := h
      exact hne (hiff.mp hd p hp)
    · simp [RelAdapter.lock_objects_and_detect_conflicts, hd]

/-- Witness for C10 at a concrete store: oid 1 currently at tid 5 while tid
4 is expected trips the conflict, and matching expectations return the
mover's conflicts. -/
theorem c10_read_current_conflict_detection_witness :
    (∃ p ∈ [((1 : Nat), (4 : Nat))],
        ((fun n => if n = 1 then some 5 else none) p.1).getD 0 ≠ p.2) ∧
    (∃ c, RelAdapter.lock_objects_and_detect_conflicts [(1, 4)]
        (fun n => if n = 1 then some 5 else none) [] = Except.error c) := by
  constructor
  · exact ⟨(1, 4), by simp⟩
  · exact (c10_read_current_conflict_detection [(1, 4)]
      (fun n => if n = 1 then some 5 else none) []).1.mp
      ⟨(1, 4), by simp, by simp⟩

namespace RelCache

theorem find?_key_eq_none {k : List Nat} {l : List Entry}
    (h : ∀ e ∈ l, e.key ≠ k) :
    l.find? (fun e => decide (e.key = k)) = none := by
  rw [List.find?_eq_none]
  intro e he
  simp [h e he]

/-- Every entry's key differs from a key that is not resident. -/
theorem key_ne_of_not_mem_keys {k : List Nat} {b : Bucket}
    (h : ¬ k ∈ b.keys) : ∀ e ∈ b.entries, e.key ≠ k := by
  intro e he heq
  exact h (heq ▸ List.mem_map_of_mem Entry.key he)

/-- A `get` for an absent key returns a miss and touches only the miss
counter. -/
theorem get_of_not_mem_keys (cfg : Config) {k : List Nat} {b : Bucket}
    (h : ¬ k ∈ b.keys) :
    Bucket.get cfg k b =
      (none, { b with stats := { hits := b.stats.hits, misses := b.stats.misses + 1 } }) := by
  have hk := key_ne_of_not_mem_keys h
  have hprob : ∀ e ∈ b.probation, e.key ≠ k := fun e he =>
    hk e (List.mem_append_left _ he)
  have hprot : ∀ e ∈ b.prot, e.key ≠ k := fun e he =>
    hk e (List.mem_append_right _ he)
  unfold Bucket.get
  rw [find?_key_eq_none hprob, find?_key_eq_none hprot]

end RelCache

/-- C6: a `get` (or a `get_multi`) for a key not present in the bucket
returns a miss, leaves both segments — hence entry population, segment
membership, recency order, frequencies and resident bytes — untouched, and
is recorded in the statistics only as one miss. -/
theorem c6_get_missing_is_pure_miss :
    ∀ (cfg : RelCache.Config) (k : List Nat) (b : RelCache.Bucket),
      ¬ k ∈ b.keys →
      (RelCache.Bucket.get cfg k b).1 = none ∧
      (RelCache.Bucket.get cfg k b).2.probation = b.probation ∧
      (RelCache.Bucket.get cfg k b).2.prot = b.prot ∧
      (RelCache.Bucket.get cfg k b).2.stats.hits = b.stats.hits ∧
      (RelCache.Bucket.get cfg k b).2.stats.misses = b.stats.misses + 1 ∧
      (RelCache.Bucket.getMulti cfg [k] b).1 = [] ∧
      (RelCache.Bucket.getMulti cfg [k] b).2 = (RelCache.Bucket.get cfg k b).2 := by
  intro cfg k b h
  have hm := RelCache.get_of_not_mem_keys cfg h
  refine ⟨by rw [hm], by rw [hm], by rw [hm], by rw [hm], by rw [hm], ?_, ?_⟩
  · simp [RelCache.Bucket.getMulti, hm]
  · simp [RelCache.Bucket.getMulti, hm]

/-- Witness for C6: key `[1]` is absent from a one-entry bucket; the miss
leaves the segments alone and only bumps the miss counter. -/
theorem c6_get_missing_is_pure_miss_witness :
    ¬ [1] ∈ (RelCache.Bucket.mk [⟨[2], [5], 1, 0⟩] [] ⟨3, 4⟩).keys ∧
    (RelCache.Bucket.get ⟨10, 8, 10, 1⟩ [1]
      (RelCache.Bucket.mk [⟨[2], [5], 1, 0⟩] [] ⟨3, 4⟩)).1 = none ∧
    (RelCache.Bucket.get ⟨10, 8, 10, 1⟩ [1]
      (RelCache.Bucket.mk [⟨[2], [5], 1, 0⟩] [] ⟨3, 4⟩)).2.stats.misses = 5 := by
  have h : ¬ [1] ∈ (RelCache.Bucket.mk [⟨[2], [5], 1, 0⟩] [] ⟨3, 4⟩).keys := by
    decide
  have := c6_get_missing_is_pure_miss ⟨10, 8, 10, 1⟩ [1]
    (RelCache.Bucket.mk [⟨[2], [5], 1, 0⟩] [] ⟨3, 4⟩) h
  exact ⟨h, this.1, by rw [this.2.2.2.2.1]⟩

/-- C5: a value larger than the maximum cacheable object size is silently
refused by the client's `set` — the state is returned unchanged, no
exception — and a `get` for a key that was absent before such a refused
`set` still misses; at the bucket level a single entry larger than the
whole capacity is likewise refused. -/
theorem c5_oversize_value_refused :
    (∀ (cfg : RelCache.Config) (c : RelCache.Client) (k v : List Nat),
      cfg.objectMax < v.length → RelCache.Client.set cfg k v c = c) ∧
    (∀ (cfg : RelCache.Config) (b : RelCache.Bucket) (k v : List Nat),
      cfg.capacity < v.length → RelCache.Bucket.set cfg k v b = b) ∧
    (∀ (cfg : RelCache.Config) (c : RelCache.Client) (k v : List Nat),
      cfg.objectMax < v.length → ¬ k ∈ c.bucket.keys →
      (RelCache.Client.get cfg k (RelCache.Client.set cfg k v c)).1 = none) := by
  refine ⟨?_, ?_, ?_⟩
  · intro cfg c k v h
    simp [RelCache.Client.set, h]
  · intro cfg b k v h
    simp [RelCache.Bucket.set, h]
  · intro cfg c k v h hk
    have hset : RelCache.Client.set cfg k v c = c := by
      simp [RelCache.Client.set, h]
    rw [hset]
    simp [RelCache.Client.get, RelCache.get_of_not_mem_keys cfg hk]

/-- Witness for C5: capacity 1024 and object_max 2048; a 4096-byte value is
refused and the following `get` misses. -/
theorem c5_oversize_value_refused_witness :
    (2048 : Nat) < (List.replicate 4096 0).length ∧
    ¬ [1] ∈ RelCache.Client.empty.bucket.keys ∧
    RelCache.Client.set ⟨1024, 819, 2048, 1⟩ [1] (List.replicate 4096 0)
      RelCache.Client.empty = RelCache.Client.empty ∧
    (RelCache.Client.get ⟨1024, 819, 2048, 1⟩ [1]
      (RelCache.Client.set ⟨1024, 819, 2048, 1⟩ [1] (List.replicate 4096 0)
        RelCache.Client.empty)).1 = none := by
  have hlen : (2048 : Nat) < (List.replicate 4096 0).length := by
    rw [List.length_replicate]
    omega
  have hk : ¬ [1] ∈ RelCache.Client.empty.bucket.keys := by decide
  exact ⟨hlen, hk,
    c5_oversize_value_refused.1 ⟨1024, 819, 2048, 1⟩ RelCache.Client.empty [1] _ hlen,
    c5_oversize_value_refused.2.2 ⟨1024, 819, 2048, 1⟩ RelCache.Client.empty [1] _ hlen hk⟩

namespace RelCache

@[simp] theorem segSize_nil : segSize [] = 0 := rfl

@[simp] theorem segSize_cons (e : Entry) (l : List Entry) :
    segSize (e :: l) = e.raw_size + segSize l := by
  simp [segSize]

@[simp] theorem segSize_append (l1 l2 : List Entry) :
    segSize (l1 ++ l2) = segSize l1 + segSize l2 := by
  simp [segSize]

theorem evictFuel_size_le (fuel cap : Nat) (prob prot : List Entry) :
    segSize (evictFuel fuel cap prob prot).1 +
      segSize (evictFuel fuel cap prob prot).2.1 ≤ cap := by
  induction fuel generalizing prob prot with
  | zero => simp [evictFuel_zero]
  | succ n ih =>
      rw [evictFuel_succ]
      by_cases h : segSize prob + segSize prot ≤ cap
      · rw [if_pos h]
        exact h
      · rw [if_neg h]
        cases prob with
        | cons e rest => exact ih rest prot
        | nil =>
            cases prot with
            | cons e rest => exact ih [e] rest
            | nil => simp

/-- The eviction loop always restores the byte bound. -/
theorem evictLog_size_le (cap : Nat) (prob prot : List Entry) :
    segSize (evictLog cap prob prot).1 + segSize (evictLog cap prob prot).2.1 ≤ cap :=
  evictFuel_size_le _ cap prob prot

theorem demoteFuel_size (fuel t : Nat) (prob prot : List Entry) :
    segSize (demoteFuel fuel t prob prot).1 + segSize (demoteFuel fuel t prob prot).2 =
      segSize prob + segSize prot := by
  induction fuel generalizing prob prot with
  | zero => simp [demoteFuel_zero]
  | succ n ih =>
      rw [demoteFuel_succ]
      by_cases h : segSize prot ≤ t
      · rw [if_pos h]
      · rw [if_neg h]
        cases prot with
        | nil => simp
        | cons e rest =>
            rw [ih]
            simp
            omega

/-- Demotion moves bytes between the segments without changing the total. -/
theorem demoteUntil_size (t : Nat) (prob prot : List Entry) :
    segSize (demoteUntil t prob prot).1 + segSize (demoteUntil t prob prot).2 =
      segSize prob + segSize prot :=
  demoteFuel_size _ t prob prot

/-- Erasing the entry found for a key removes exactly its bytes. -/
theorem segSize_eraseKey {k : List Nat} {l : List Entry} {e : Entry}
    (h : l.find? (fun x => decide (x.key = k)) = some e) :
    segSize l = e.raw_size + segSize (eraseKey k l) := by
  induction l with
  | nil => simp at h
  | cons a rest ih =>
      by_cases ha : a.key = k
      · rw [List.find?_cons_of_pos _ (by simp [ha])] at h
        cases h
        simp [eraseKey, ha]
      · rw [List.find?_cons_of_neg _ (by simp [ha])] at h
        simp [eraseKey, ha, ih h]
        omega

/-- A `get` never changes the resident byte count. -/
theorem get_size_eq (cfg : Config) (k : List Nat) (b : Bucket) :
    (Bucket.get cfg k b).2.size = b.size := by
  unfold Bucket.get
  cases hp : b.probation.find? (fun e => decide (e.key = k)) with
  | some e =>
      simp only [Bucket.size]
      have hd := demoteUntil_size cfg.protTarget (eraseKey k b.probation)
        (b.prot ++ [{ e with frequency := e.frequency + 1 }])
      simp only [hd, segSize_append]
      have he := segSize_eraseKey hp
      simp [he]
      omega
  | none =>
      cases hq : b.prot.find? (fun e => decide (e.key = k)) with
      | some e =>
          simp only [Bucket.size]
          have he := segSize_eraseKey hq
          simp [he]
          omega
      | none => rfl

/-- A `set` re-establishes the byte bound before returning. -/
theorem set_size_le (cfg : Config) (k v : List Nat) (b : Bucket)
    (h : b.size ≤ cfg.capacity) :
    (Bucket.set cfg k v b).size ≤ cfg.capacity := by
  unfold Bucket.set
  split
  · exact h
  · exact evictLog_size_le cfg.capacity _ _

theorem applyOps_size_le (cfg : Config) (ops : List Op) (b : Bucket)
    (h : b.size ≤ cfg.capacity) :
    (applyOps cfg ops b).size ≤ cfg.capacity := by
  induction ops generalizing b with
  | nil => exact h
  | cons op rest ih =>
      apply ih
      cases op with
      | get k => rw [applyOp, get_size_eq]; exact h
      | set k v => exact set_size_le cfg k v b h

end RelCache

/-- C1: over every sequence of `set` and `get` operations from an empty
bucket, after each operation the sum of `raw_size` over all resident
entries is at most the capacity; the bound is re-established by the
eviction loop inside every single insert (a `set` restores the bound from
any state satisfying it, and a `get` never changes the resident bytes), not
by a periodic sweep. -/
theorem c1_resident_bytes_bounded :
    (∀ (cfg : RelCache.Config) (ops : List RelCache.Op),
      (RelCache.applyOps cfg ops RelCache.Bucket.empty).size ≤ cfg.capacity) ∧
    (∀ (cfg : RelCache.Config) (k v : List Nat) (b : RelCache.Bucket),
      b.size ≤ cfg.capacity →
      (RelCache.Bucket.set cfg k v b).size ≤ cfg.capacity) ∧
    (∀ (cfg : RelCache.Config) (k : List Nat) (b : RelCache.Bucket),
      (RelCache.Bucket.get cfg k b).2.size = b.size) := by
  refine ⟨?_, ?_, ?_⟩
  · intro cfg ops
    exact RelCache.applyOps_size_le cfg ops _ (by simp [RelCache.Bucket.empty, RelCache.Bucket.size])
  · intro cfg k v b h
    exact RelCache.set_size_le cfg k v b h
  · intro cfg k b
    exact RelCache.get_size_eq cfg k b

/-- Witness for C1: a full bucket of capacity 3 accepts an overwriting
insert and stays within bounds. -/
theorem c1_resident_bytes_bounded_witness :
    (RelCache.Bucket.mk [⟨[2], [5], 1, 0⟩] [⟨[3], [6, 7], 2, 2⟩] ⟨0, 0⟩).size ≤ 3 ∧
    (RelCache.Bucket.set ⟨3, 2, 3, 1⟩ [1] [8, 9]
      (RelCache.Bucket.mk [⟨[2], [5], 1, 0⟩] [⟨[3], [6, 7], 2, 2⟩] ⟨0, 0⟩)).size ≤ 3 := by
  have h : (RelCache.Bucket.mk [⟨[2], [5], 1, 0⟩] [⟨[3], [6, 7], 2, 2⟩] ⟨0, 0⟩).size ≤ 3 := by
    decide
  exact ⟨h, c1_resident_bytes_bounded.2.1 ⟨3, 2, 3, 1⟩ [1] [8, 9] _ h⟩

namespace RelCache

theorem eraseKey_mem {k : List Nat} {l : List Entry} :
    ∀ x ∈ eraseKey k l, x ∈ l := by
  induction l with
  | nil => simp [eraseKey]
  | cons a rest ih =>
      intro x hx
      by_cases ha : a.key = k
      · simp [eraseKey, ha] at hx
        exact List.mem_cons_of_mem a hx
      · simp [eraseKey, ha] at hx
        rcases hx with hx | hx
        · exact hx ▸ List.mem_cons_self a rest
        · exact List.mem_cons_of_mem a (ih x hx)

theorem find?_key_eq {k : List Nat} {l : List Entry} {e : Entry}
    (h : l.find? (fun x => decide (x.key = k)) = some e) : e.key = k := by
  have := List.find?_some h
  simpa using this

theorem find?_key_mem {k : List Nat} {l : List Entry} {e : Entry}
    (h : l.find? (fun x => decide (x.key = k)) = some e) : e ∈ l :=
  List.mem_of_find?_eq_some h

/-- The list is, up to order, the found entry plus the list with it
removed. -/
theorem perm_cons_eraseKey {k : List Nat} {l : List Entry} {e : Entry}
    (h : l.find? (fun x => decide (x.key = k)) = some e) :
    List.Perm l (e :: eraseKey k l) := by
  induction l with
  | nil => simp at h
  | cons a rest ih =>
      by_cases ha : a.key = k
      · rw [List.find?_cons_of_pos _ (by simp [ha])] at h
        cases h
        simp [eraseKey, ha]
      · rw [List.find?_cons_of_neg _ (by simp [ha])] at h
        have := ih h
        simp only [eraseKey, if_neg ha]
        exact (this.cons a).trans (List.Perm.swap e a _)

theorem evictFuel_prot_mem (fuel cap : Nat) (prob prot : List Entry) :
    ∀ x ∈ (evictFuel fuel cap prob prot).2.1, x ∈ prot := by
  induction fuel generalizing prob prot with
  | zero => simp [evictFuel_zero]
  | succ n ih =>
      rw [evictFuel_succ]
      by_cases h : segSize prob + segSize prot ≤ cap
      · rw [if_pos h]
        exact fun x hx => hx
      · rw [if_neg h]
        cases prob with
        | cons e rest => exact ih rest prot
        | nil =>
            cases prot with
            | cons e rest => exact fun x hx => List.mem_cons_of_mem e (ih [e] rest x hx)
            | nil => simp

/-- The eviction loop never adds to the Protected segment. -/
theorem evictLog_prot_mem (cap : Nat) (prob prot : List Entry) :
    ∀ x ∈ (evictLog cap prob prot).2.1, x ∈ prot :=
  evictFuel_prot_mem _ cap prob prot

theorem demoteFuel_prot_mem (fuel t : Nat) (prob prot : List Entry) :
    ∀ x ∈ (demoteFuel fuel t prob prot).2, x ∈ prot := by
  induction fuel generalizing prob prot with
  | zero => simp [demoteFuel_zero]
  | succ n ih =>
      rw [demoteFuel_succ]
      by_cases h : segSize prot ≤ t
      · rw [if_pos h]
        exact fun x hx => hx
      · rw [if_neg h]
        cases prot with
        | nil => simp
        | cons e rest => exact fun x hx => List.mem_cons_of_mem e (ih (prob ++ [e]) rest x hx)

/-- Demotion never adds to the Protected segment. -/
theorem demoteUntil_prot_mem (t : Nat) (prob prot : List Entry) :
    ∀ x ∈ (demoteUntil t prob prot).2, x ∈ prot :=
  demoteFuel_prot_mem _ t prob prot

theorem demoteFuel_append_perm (fuel t : Nat) (prob prot : List Entry) :
    List.Perm ((demoteFuel fuel t prob prot).1 ++ (demoteFuel fuel t prob prot).2)
      (prob ++ prot) := by
  induction fuel generalizing prob prot with
  | zero => simp [demoteFuel_zero]
  | succ n ih =>
      rw [demoteFuel_succ]
      by_cases h : segSize prot ≤ t
      · rw [if_pos h]
      · rw [if_neg h]
        cases prot with
        | nil => simp
        | cons e rest =>
            refine (ih (prob ++ [e]) rest).trans ?_
            rw [List.append_assoc]
            exact List.Perm.refl _

/-- Demotion conserves the entries, merely moving them between segments. -/
theorem demoteUntil_append_perm (t : Nat) (prob prot : List Entry) :
    List.Perm ((demoteUntil t prob prot).1 ++ (demoteUntil t prob prot).2)
      (prob ++ prot) :=
  demoteFuel_append_perm _ t prob prot

theorem evictFuel_evicted_provenance (fuel cap : Nat) (prob prot : List Entry) :
    ∀ j, Ev.evicted j ∈ (evictFuel fuel cap prob prot).2.2 →
      j ∈ prob.map Entry.key ∨
      ∃ l1 l2, (evictFuel fuel cap prob prot).2.2 = l1 ++ Ev.demoted j :: l2 ∧
        Ev.evicted j ∈ l2 := by
  induction fuel generalizing prob prot with
  | zero => simp [evictFuel_zero]
  | succ n ih =>
      rw [evictFuel_succ]
      by_cases h : segSize prob + segSize prot ≤ cap
      · rw [if_pos h]
        simp
      · rw [if_neg h]
        cases prob with
        | cons e rest =>
            intro j hj
            simp only [List.mem_cons] at hj
            rcases hj with hj | hj
            · left
              simp [Ev.evicted.injEq] at hj
              simp [hj]
            · rcases ih rest prot j hj with hmem | ⟨l1, l2, heq, hm⟩
              · left
                exact List.mem_cons_of_mem _ hmem
              · right
                exact ⟨Ev.evicted e.key :: l1, l2, by simp [heq], hm⟩
        | nil =>
            cases prot with
            | cons e rest =>
                intro j hj
                simp only [List.mem_cons] at hj
                rcases hj with hj | hj
                · exact absurd hj (by simp)
                · rcases ih [e] rest j hj with hmem | ⟨l1, l2, heq, hm⟩
                  · right
                    simp only [List.map, List.mem_singleton] at hmem
                    refine ⟨[], (evictFuel n cap [e] rest).2.2, by simp [hmem], hj⟩
                  · right
                    exact ⟨Ev.demoted e.key :: l1, l2, by simp [heq], hm⟩
            | nil => simp

/-- Everything the eviction loop removes is popped from Probation: an
evicted key either was in the Probation segment handed to the loop, or its
demotion into Probation is logged strictly before its eviction. -/
theorem evictLog_evicted_provenance (cap : Nat) (prob prot : List Entry) :
    ∀ j, Ev.evicted j ∈ (evictLog cap prob prot).2.2 →
      j ∈ prob.map Entry.key ∨
      ∃ l1 l2, (evictLog cap prob prot).2.2 = l1 ++ Ev.demoted j :: l2 ∧
        Ev.evicted j ∈ l2 :=
  evictFuel_evicted_provenance _ cap prob prot

/-- A `get` conserves the resident keys up to order. -/
theorem get_keys_perm (cfg : Config) (k : List Nat) (b : Bucket) :
    List.Perm (Bucket.get cfg k b).2.keys b.keys := by
  unfold Bucket.get
  cases hp : b.probation.find? (fun e => decide (e.key = k)) with
  | some e =>
      simp only [Bucket.keys, Bucket.entries]
      have hA := demoteUntil_append_perm cfg.protTarget (eraseKey k b.probation)
        (b.prot ++ [{ e with frequency := e.frequency + 1 }])
      have hB : List.Perm
          (eraseKey k b.probation ++ (b.prot ++ [{ e with frequency := e.frequency + 1 }]))
          ({ e with frequency := e.frequency + 1 } :: (eraseKey k b.probation ++ b.prot)) := by
        rw [← List.append_assoc]
        exact List.perm_append_singleton _ _
      have hC : List.Perm (b.probation ++ b.prot)
          (e :: (eraseKey k b.probation ++ b.prot)) :=
        (perm_cons_eraseKey hp).append_right b.prot
      exact ((hA.trans hB).map Entry.key).trans ((hC.map Entry.key).symm)
  | none =>
    cases hq : b.prot.find? (fun e => decide (e.key = k)) with
    | some e =>
        simp only [Bucket.keys, Bucket.entries]
        have hB : List.Perm
            (b.probation ++ (eraseKey k b.prot ++ [{ e with frequency := e.frequency + 1 }]))
            ({ e with frequency := e.frequency + 1 } :: (b.probation ++ eraseKey k b.prot)) := by
          rw [← List.append_assoc]
          exact List.perm_append_singleton _ _
        have hC : List.Perm (b.probation ++ b.prot)
            (e :: (b.probation ++ eraseKey k b.prot)) :=
          (List.Perm.append_left b.probation (perm_cons_eraseKey hq)).trans
            List.perm_middle
        exact (hB.map Entry.key).trans ((hC.map Entry.key).symm)
    | none => rfl

end RelCache

/-- C2: an entry enters the Protected segment only through a hit while it
resides in Probation (promotion in `get`) or through warm snapshot reload
(frequency above the warm threshold); a plain `set` never places a key into
Protected.  A `get` conserves the resident keys, demotion conserves the
entries (moving Protected overflow to Probation, discarding nothing), and
every key the eviction loop removes is popped from Probation — either it
already sat in Probation or its demotion into Probation is logged strictly
before its eviction — so no Protected entry is evicted without first
passing through Probation. -/
theorem c2_protected_only_via_probation :
    (∀ (cfg : RelCache.Config) (k : List Nat) (b : RelCache.Bucket) (j : List Nat),
      j ∈ RelCache.protKeys (RelCache.Bucket.get cfg k b).2 →
      j ∈ RelCache.protKeys b ∨ (j = k ∧ j ∈ RelCache.probKeys b)) ∧
    (∀ (cfg : RelCache.Config) (k v : List Nat) (b : RelCache.Bucket) (j : List Nat),
      j ∈ RelCache.protKeys (RelCache.Bucket.set cfg k v b) →
      j ∈ RelCache.protKeys b) ∧
    (∀ (cfg : RelCache.Config) (e : RelCache.Entry) (b : RelCache.Bucket) (j : List Nat),
      j ∈ RelCache.protKeys (RelCache.insertLoaded cfg e b) →
      j ∈ RelCache.protKeys b ∨ (j = e.key ∧ cfg.warmThreshold < e.frequency)) ∧
    (∀ (cfg : RelCache.Config) (k : List Nat) (b : RelCache.Bucket),
      List.Perm (RelCache.Bucket.get cfg k b).2.keys b.keys) ∧
    (∀ (t : Nat) (prob prot : List RelCache.Entry),
      List.Perm ((RelCache.demoteUntil t prob prot).1 ++ (RelCache.demoteUntil t prob prot).2)
        (prob ++ prot)) ∧
    (∀ (cap : Nat) (prob prot : List RelCache.Entry) (j : List Nat),
      RelCache.Ev.evicted j ∈ (RelCache.evictLog cap prob prot).2.2 →
      j ∈ prob.map RelCache.Entry.key ∨
      ∃ l1 l2, (RelCache.evictLog cap prob prot).2.2 = l1 ++ RelCache.Ev.demoted j :: l2 ∧
        RelCache.Ev.evicted j ∈ l2) := by
  refine ⟨?_, ?_, ?_, RelCache.get_keys_perm, RelCache.demoteUntil_append_perm,
    RelCache.evictLog_evicted_provenance⟩
  · intro cfg k b j hj
    unfold RelCache.Bucket.get at hj
    cases hp : b.probation.find? (fun e => decide (e.key = k)) with
    | some e =>
        rw [hp] at hj
        simp only [RelCache.protKeys, List.mem_map] at hj
        obtain ⟨x, hx, hxk⟩ := hj
        have hx2 := RelCache.demoteUntil_prot_mem _ _ _ x hx
        rcases List.mem_append.mp hx2 with hx3 | hx3
        · left
          exact hxk ▸ List.mem_map_of_mem RelCache.Entry.key hx3
        · right
          have hxe : x = { e with frequency := e.frequency + 1 } := by
            simpa using hx3
          have hxkey : x.key = e.key := by rw [hxe]
          have hkey : e.key = k := RelCache.find?_key_eq hp
          have hmem : e ∈ b.probation := RelCache.find?_key_mem hp
          have hj2 : j = e.key := by rw [← hxk, hxkey]
          refine ⟨by rw [hj2, hkey], ?_⟩
          rw [hj2]
          exact List.mem_map_of_mem RelCache.Entry.key hmem
    | none =>
      cases hq : b.prot.find? (fun e => decide (e.key = k)) with
      | some e =>
          rw [hp, hq] at hj
          simp only [RelCache.protKeys, List.mem_map] at hj
          obtain ⟨x, hx, hxk⟩ := hj
          rcases List.mem_append.mp hx with hx3 | hx3
          · left
            exact hxk ▸ List.mem_map_of_mem RelCache.Entry.key
              (RelCache.eraseKey_mem x hx3)
          · left
            have hxe : x = { e with frequency := e.frequency + 1 } := by
              simpa using hx3
            have hxkey : x.key = e.key := by rw [hxe]
            have hmem : e ∈ b.prot := RelCache.find?_key_mem hq
            have hj2 : j = e.key := by rw [← hxk, hxkey]
            rw [hj2]
            exact List.mem_map_of_mem RelCache.Entry.key hmem
      | none =>
          rw [hp, hq] at hj
          exact Or.inl hj
  · intro cfg k v b j hj
    unfold RelCache.Bucket.set at hj
    by_cases hc : cfg.capacity < v.length
    · rw [if_pos hc] at hj
      exact hj
    · rw [if_neg hc] at hj
      simp only [RelCache.protKeys, List.mem_map] at hj
      obtain ⟨x, hx, hxk⟩ := hj
      have hx2 := RelCache.evictLog_prot_mem _ _ _ x hx
      exact hxk ▸ List.mem_map_of_mem RelCache.Entry.key (RelCache.eraseKey_mem x hx2)
  · intro cfg e b j hj
    unfold RelCache.insertLoaded at hj
    by_cases hc : cfg.capacity < e.raw_size
    · rw [if_pos hc] at hj
      exact Or.inl hj
    · rw [if_neg hc] at hj
      by_cases hw : cfg.warmThreshold < e.frequency
      · rw [if_pos hw] at hj
        simp only [RelCache.protKeys, List.mem_map] at hj
        obtain ⟨x, hx, hxk⟩ := hj
        have hx2 := RelCache.evictLog_prot_mem _ _ _ x hx
        have hx3 := RelCache.demoteUntil_prot_mem _ _ _ x hx2
        rcases List.mem_append.mp hx3 with hx4 | hx4
        · left
          exact hxk ▸ List.mem_map_of_mem RelCache.Entry.key
            (RelCache.eraseKey_mem x hx4)
        · right
          have hxe : x = e := by simpa using hx4
          exact ⟨by rw [← hxk, hxe], hw⟩
      · rw [if_neg hw] at hj
        simp only [RelCache.protKeys, List.mem_map] at hj
        obtain ⟨x, hx, hxk⟩ := hj
        have hx2 := RelCache.evictLog_prot_mem _ _ _ x hx
        left
        exact hxk ▸ List.mem_map_of_mem RelCache.Entry.key
          (RelCache.eraseKey_mem x hx2)

/-- Witness for C2 at concrete inputs: a hit on the sole Probation entry
promotes it to Protected, and an over-capacity eviction pops that entry
from Probation. -/
theorem c2_protected_only_via_probation_witness :
    ([1] ∈ RelCache.protKeys ((RelCache.Bucket.get ⟨10, 8, 10, 1⟩ [1]
        (RelCache.Bucket.mk [⟨[1], [2, 2], 2, 0⟩] [] ⟨0, 0⟩)).2)) ∧
    ([1] ∈ RelCache.protKeys (RelCache.Bucket.mk [⟨[1], [2, 2], 2, 0⟩] [] ⟨0, 0⟩) ∨
      ([1] = [1] ∧ [1] ∈ RelCache.probKeys (RelCache.Bucket.mk [⟨[1], [2, 2], 2, 0⟩] [] ⟨0, 0⟩))) ∧
    (RelCache.Ev.evicted [1] ∈ (RelCache.evictLog 0 [⟨[1], [2, 2], 2, 0⟩] []).2.2) ∧
    ([1] ∈ [(⟨[1], [2, 2], 2, 0⟩ : RelCache.Entry)].map RelCache.Entry.key ∨
      ∃ l1 l2, (RelCache.evictLog 0 [⟨[1], [2, 2], 2, 0⟩] []).2.2 =
        l1 ++ RelCache.Ev.demoted [1] :: l2 ∧ RelCache.Ev.evicted [1] ∈ l2) := by
  refine ⟨by decide, ?_, by decide, ?_⟩
  · exact c2_protected_only_via_probation.1 ⟨10, 8, 10, 1⟩ [1]
      (RelCache.Bucket.mk [⟨[1], [2, 2], 2, 0⟩] [] ⟨0, 0⟩) [1] (by decide)
  · exact c2_protected_only_via_probation.2.2.2.2.2 0 [⟨[1], [2, 2], 2, 0⟩] [] [1] (by decide)

namespace RelCache

theorem evictFuel_prob_mem (fuel cap : Nat) (prob prot : List Entry) :
    ∀ x ∈ (evictFuel fuel cap prob prot).1, x ∈ prob ++ prot := by
  induction fuel generalizing prob prot with
  | zero => simp [evictFuel_zero]
  | succ n ih =>
      rw [evictFuel_succ]
      by_cases h : segSize prob + segSize prot ≤ cap
      · rw [if_pos h]
        exact fun x hx => List.mem_append_left _ hx
      · rw [if_neg h]
        cases prob with
        | cons e rest =>
            intro x hx
            have := ih rest prot x hx
            rcases List.mem_append.mp this with h1 | h1
            · exact List.mem_append_left _ (List.mem_cons_of_mem e h1)
            · exact List.mem_append_right _ h1
        | nil =>
            cases prot with
            | cons e rest =>
                intro x hx
                have := ih [e] rest x hx
                rcases List.mem_append.mp this with h1 | h1
                · simp only [List.mem_singleton] at h1
                  exact List.mem_append_right _ (h1 ▸ List.mem_cons_self e rest)
                · exact List.mem_append_right _ (List.mem_cons_of_mem e h1)
            | nil => simp

/-- Every entry resident after the eviction loop was resident before it. -/
theorem evictLog_entries_mem (cap : Nat) (prob prot : List Entry) :
    ∀ x, x ∈ (evictLog cap prob prot).1 ++ (evictLog cap prob prot).2.1 →
      x ∈ prob ++ prot := by
  intro x hx
  rcases List.mem_append.mp hx with h1 | h1
  · exact evictFuel_prob_mem _ cap prob prot x h1
  · exact List.mem_append_right _ (evictLog_prot_mem cap prob prot x h1)

/-- Every entry resident after a demotion round was resident before it. -/
theorem demoteUntil_entries_mem (t : Nat) (prob prot : List Entry) :
    ∀ x, x ∈ (demoteUntil t prob prot).1 ++ (demoteUntil t prob prot).2 →
      x ∈ prob ++ prot := by
  intro x hx
  exact (demoteUntil_append_perm t prob prot).mem_iff.mp hx

/-- One operation: a resident entry with positive frequency either had a
positive-frequency ancestor with the same key, or the operation was a hit
for that very key. -/
theorem applyOp_freq_provenance (cfg : Config) (op : Op) (b : Bucket) :
    ∀ e2 ∈ (applyOp cfg op b).entries, 1 ≤ e2.frequency →
      (∃ e0 ∈ b.entries, e0.key = e2.key ∧ 1 ≤ e0.frequency) ∨
      (∃ k, op = Op.get k ∧ e2.key = k) := by
  intro e2 he hf
  cases op with
  | get k =>
      simp only [applyOp] at he
      unfold Bucket.get at he
      cases hp : b.probation.find? (fun e => decide (e.key = k)) with
      | some e =>
          rw [hp] at he
          simp only [Bucket.entries] at he
          have hmem := demoteUntil_entries_mem _ _ _ e2 he
          rcases List.mem_append.mp hmem with h1 | h1
          · exact Or.inl ⟨e2, List.mem_append_left _ (eraseKey_mem e2 h1), rfl, hf⟩
          · rcases List.mem_append.mp h1 with h2 | h2
            · exact Or.inl ⟨e2, List.mem_append_right _ h2, rfl, hf⟩
            · have hxe : e2 = { e with frequency := e.frequency + 1 } := by
                simpa using h2
              have hk2 : e2.key = k := by
                rw [hxe]
                exact show e.key = k from find?_key_eq hp
              exact Or.inr ⟨k, rfl, hk2⟩
      | none =>
        cases hq : b.prot.find? (fun e => decide (e.key = k)) with
        | some e =>
            rw [hp, hq] at he
            simp only [Bucket.entries] at he
            rcases List.mem_append.mp he with h1 | h1
            · exact Or.inl ⟨e2, List.mem_append_left _ h1, rfl, hf⟩
            · rcases List.mem_append.mp h1 with h2 | h2
              · exact Or.inl ⟨e2,
                  List.mem_append_right _ (eraseKey_mem e2 h2), rfl, hf⟩
              · have hxe : e2 = { e with frequency := e.frequency + 1 } := by
                  simpa using h2
                have hk2 : e2.key = k := by
                  rw [hxe]
                  exact show e.key = k from find?_key_eq hq
                exact Or.inr ⟨k, rfl, hk2⟩
        | none =>
            rw [hp, hq] at he
            exact Or.inl ⟨e2, he, rfl, hf⟩
  | set k v =>
      simp only [applyOp] at he
      unfold Bucket.set at he
      by_cases hc : cfg.capacity < v.length
      · rw [if_pos hc] at he
        exact Or.inl ⟨e2, he, rfl, hf⟩
      · rw [if_neg hc] at he
        simp only [Bucket.entries] at he
        cases hl : lookupEntry k b with
        | some e0 =>
            rw [hl] at he
            have hmem := evictLog_entries_mem _ _ _ e2 he
            rcases List.mem_append.mp hmem with h1 | h1
            · rcases List.mem_append.mp h1 with h2 | h2
              · exact Or.inl ⟨e2, List.mem_append_left _ (eraseKey_mem e2 h2), rfl, hf⟩
              · have hxe : e2 = ⟨k, v, v.length, e0.frequency⟩ := by
                  simpa using h2
                have hf0 : 1 ≤ e0.frequency := by
                  rw [hxe] at hf
                  exact hf
                refine Or.inl ⟨e0, List.mem_of_find?_eq_some hl, ?_, hf0⟩
                rw [hxe]
                exact find?_key_eq hl
            · exact Or.inl ⟨e2, List.mem_append_right _ (eraseKey_mem e2 h1), rfl, hf⟩
        | none =>
            rw [hl] at he
            have hmem := evictLog_entries_mem _ _ _ e2 he
            rcases List.mem_append.mp hmem with h1 | h1
            · rcases List.mem_append.mp h1 with h2 | h2
              · exact Or.inl ⟨e2, List.mem_append_left _ (eraseKey_mem e2 h2), rfl, hf⟩
              · have hxe : e2 = ⟨k, v, v.length, 0⟩ := by
                  simpa using h2
                rw [hxe] at hf
                exact absurd hf (by simp)
            · exact Or.inl ⟨e2, List.mem_append_right _ (eraseKey_mem e2 h1), rfl, hf⟩

/-- Over a whole trace: positive frequency comes from an initial
positive-frequency entry of the same key or from some hit in the trace. -/
theorem applyOps_freq_provenance (cfg : Config) (ops : List Op) :
    ∀ b, ∀ e2 ∈ (applyOps cfg ops b).entries, 1 ≤ e2.frequency →
      (∃ e0 ∈ b.entries, e0.key = e2.key ∧ 1 ≤ e0.frequency) ∨
      everGet ops e2.key = true := by
  induction ops with
  | nil => exact fun b e2 he hf => Or.inl ⟨e2, he, rfl, hf⟩
  | cons op rest ih =>
      intro b e2 he hf
      rcases ih (applyOp cfg op b) e2 he hf with ⟨e0, he0, hk, hf0⟩ | hever
      · rcases applyOp_freq_provenance cfg op b e0 he0 hf0 with
          ⟨e1, he1, hk1, hf1⟩ | ⟨k, hop, hke⟩
        · exact Or.inl ⟨e1, he1, hk1.trans hk, hf1⟩
        · right
          subst hop
          have : k = e2.key := by rw [← hke, hk]
          simp [everGet, this]
      · right
        cases op with
        | get k2 =>
            simp only [everGet]
            by_cases hk2 : k2 = e2.key
            · simp [hk2]
            · simp [hk2, hever]
        | set k2 v2 =>
            simp only [everGet]
            exact hever

theorem savedEntries_mem (b : Bucket) (e : Entry) :
    e ∈ savedEntries b ↔ (e ∈ b.entries ∧ 1 ≤ e.frequency) := by
  simp [savedEntries, List.mem_filter]

end RelCache

/-- C8 counterexample: in the trace `set k; get k; set k` the entry was hit
between the writes but never after its last write; because overwrite
preserves the accumulated frequency, `save` nevertheless persists a record
for that key, contradicting the claim that exactly the entries read since
being written are saved. -/
theorem c8_counterexample_hit_before_last_write :
    (∃ e ∈ RelCache.savedEntries
        (RelCache.applyOps ⟨10, 8, 10, 1⟩
          [RelCache.Op.set [1] [7], RelCache.Op.get [1], RelCache.Op.set [1] [8]]
          RelCache.Bucket.empty), e.key = [1]) ∧
    RelCache.hitAfterLastWrite
      [RelCache.Op.set [1] [7], RelCache.Op.get [1], RelCache.Op.set [1] [8]] [1] = false := by
  decide

/-- C8 amended: `save` persists exactly the resident entries whose
accumulated frequency is positive, that is, entries hit at least once at
some time (the frequency survives overwrites); in particular a key that was
only ever written and never read appears in no record of the snapshot. -/
theorem c8_saved_iff_ever_hit :
    (∀ (b : RelCache.Bucket) (e : RelCache.Entry),
      e ∈ RelCache.savedEntries b ↔ (e ∈ b.entries ∧ 1 ≤ e.frequency)) ∧
    (∀ (cfg : RelCache.Config) (ops : List RelCache.Op) (k : List Nat),
      RelCache.everGet ops k = false →
      ∀ e ∈ RelCache.savedEntries (RelCache.applyOps cfg ops RelCache.Bucket.empty),
        e.key ≠ k) := by
  refine ⟨RelCache.savedEntries_mem, ?_⟩
  intro cfg ops k hng e he hke
  have hm := (RelCache.savedEntries_mem _ e).mp he
  rcases RelCache.applyOps_freq_provenance cfg ops RelCache.Bucket.empty e hm.1 hm.2 with
    ⟨e0, he0, _, _⟩ | hever
  · simp [RelCache.Bucket.empty, RelCache.Bucket.entries] at he0
  · rw [hke] at hever
    rw [hever] at hng
    exact absurd hng (by simp)

/-- Witness for C8 amended: a hit entry is saved, and in a write-only trace
no record carries the written key. -/
theorem c8_saved_iff_ever_hit_witness :
    ((⟨[1], [5], 1, 1⟩ : RelCache.Entry) ∈
      RelCache.savedEntries (RelCache.Bucket.mk [] [⟨[1], [5], 1, 1⟩] ⟨0, 0⟩) ↔
      ((⟨[1], [5], 1, 1⟩ : RelCache.Entry) ∈
        (RelCache.Bucket.mk [] [⟨[1], [5], 1, 1⟩] ⟨0, 0⟩).entries ∧
        1 ≤ (⟨[1], [5], 1, 1⟩ : RelCache.Entry).frequency)) ∧
    (RelCache.everGet [RelCache.Op.set [1] [7]] [1] = false) ∧
    (∀ e ∈ RelCache.savedEntries
        (RelCache.applyOps ⟨10, 8, 10, 1⟩ [RelCache.Op.set [1] [7]]
          RelCache.Bucket.empty), e.key ≠ [1]) := by
  refine ⟨c8_saved_iff_ever_hit.1 _ _, by decide, ?_⟩
  exact c8_saved_iff_ever_hit.2 ⟨10, 8, 10, 1⟩ [RelCache.Op.set [1] [7]] [1] (by decide)

namespace RelCache

/-- The entry as reconstructed by the parser: identical except that
`raw_size` is recomputed from the value. -/
def normEntry (e : Entry) : Entry :=
  ⟨e.key, e.value, e.value.length, e.frequency⟩

theorem parseEntries_zero (rest : List Nat) :
    parseEntries 0 rest = some ([], rest) := rfl

theorem parseEntries_succ (n : Nat) (rest : List Nat) :
    parseEntries (n + 1) rest =
      ((parseEntry rest).bind fun er =>
        (parseEntries n er.2).bind fun esr => some (er.1 :: esr.1, esr.2)) := rfl

/-- Parsing inverts serialization record by record. -/
theorem parseEntry_serialize (e : Entry) (rest : List Nat) :
    parseEntry (serializeEntry e ++ rest) = some (normEntry e, rest) := by
  simp only [serializeEntry, normEntry, List.cons_append, List.append_assoc,
    List.singleton_append, List.nil_append]
  rw [parseEntry]
  have h1 : e.key.length ≤
      (e.key ++ (e.value.length :: (e.value ++ e.frequency :: rest))).length := by
    simp
  rw [if_pos h1]
  rw [List.drop_left]
  have h2 : e.value.length ≤ (e.value ++ e.frequency :: rest).length := by
    simp
  simp [h2, List.take_left, List.drop_left]

/-- Parsing inverts serialization for a whole record stream. -/
theorem parseEntries_serialize (es : List Entry) (tail : List Nat) :
    parseEntries es.length (serializeEntries es ++ tail) =
      some (es.map normEntry, tail) := by
  induction es with
  | nil => simp [parseEntries_zero, serializeEntries]
  | cons e rest ih =>
      simp only [List.length_cons, serializeEntries, List.append_assoc, List.map_cons]
      rw [parseEntries_succ, parseEntry_serialize]
      simp [Option.bind, ih]

/-- A saved file passes the whole-file validation and yields exactly the
persisted records. -/
theorem parseFile_save (b : Bucket) :
    parseFile (save b) = some ((savedEntries b).map normEntry) := by
  simp only [save, parseFile]
  simp only [if_true]
  rw [parseEntries_serialize]
  simp

theorem insertLoaded_pair_mem (cfg : Config) (e : Entry) (b : Bucket) :
    ∀ k v, pairResident k v (insertLoaded cfg e b) →
      (k = e.key ∧ v = e.value) ∨ pairResident k v b := by
  intro k v hp
  unfold insertLoaded at hp
  by_cases hc : cfg.capacity < e.raw_size
  · rw [if_pos hc] at hp
    exact Or.inr hp
  · rw [if_neg hc] at hp
    by_cases hw : cfg.warmThreshold < e.frequency
    · rw [if_pos hw] at hp
      simp only [pairResident, Bucket.entries] at hp
      obtain ⟨x, hx, hk, hv⟩ := hp
      have h1 := evictLog_entries_mem _ _ _ x hx
      have h2 := demoteUntil_entries_mem _ _ _ x h1
      rcases List.mem_append.mp h2 with h3 | h3
      · exact Or.inr ⟨x, List.mem_append_left _ (eraseKey_mem x h3), hk, hv⟩
      · rcases List.mem_append.mp h3 with h4 | h4
        · exact Or.inr ⟨x, List.mem_append_right _ (eraseKey_mem x h4), hk, hv⟩
        · have hxe : x = e := by simpa using h4
          exact Or.inl ⟨by rw [← hk, hxe], by rw [← hv, hxe]⟩
    · rw [if_neg hw] at hp
      simp only [pairResident, Bucket.entries] at hp
      obtain ⟨x, hx, hk, hv⟩ := hp
      have h1 := evictLog_entries_mem _ _ _ x hx
      rcases List.mem_append.mp h1 with h3 | h3
      · rcases List.mem_append.mp h3 with h4 | h4
        · exact Or.inr ⟨x, List.mem_append_left _ (eraseKey_mem x h4), hk, hv⟩
        · have hxe : x = e := by simpa using h4
          exact Or.inl ⟨by rw [← hk, hxe], by rw [← hv, hxe]⟩
      · exact Or.inr ⟨x, List.mem_append_right _ (eraseKey_mem x h3), hk, hv⟩

theorem loadEntries_pair_mem (cfg : Config) (es : List Entry) :
    ∀ b k v, pairResident k v (loadEntries cfg es b) →
      (∃ ne ∈ es, ne.key = k ∧ ne.value = v) ∨ pairResident k v b := by
  induction es with
  | nil => exact fun b k v hp => Or.inr hp
  | cons e rest ih =>
      intro b k v hp
      rcases ih (insertLoaded cfg e b) k v hp with ⟨ne, hne, hk, hv⟩ | hres
      · exact Or.inl ⟨ne, List.mem_cons_of_mem e hne, hk, hv⟩
      · rcases insertLoaded_pair_mem cfg e b k v hres with ⟨hk, hv⟩ | hres2
        · exact Or.inl ⟨e, List.mem_cons_self e rest, hk.symm, hv.symm⟩
        · exact Or.inr hres2

theorem parseEntry_suffix {l : List Nat} {er : Entry × List Nat}
    (h : parseEntry l = some er) : er.2 <:+ l := by
  cases l with
  | nil => simp [parseEntry] at h
  | cons klen rest =>
      simp only [parseEntry] at h
      split at h
      · split at h
        · exact absurd h (by simp)
        · rename_i vlen r2 heq
          split at h
          · split at h
            · exact absurd h (by simp)
            · rename_i freq r3 heq2
              have her : er.2 = r3 := by
                cases h
                rfl
              rw [her]
              have s1 : r3 <:+ r2.drop vlen := by
                rw [heq2]
                exact List.suffix_cons freq r3
              have s2 : r2 <:+ rest.drop klen := by
                rw [heq]
                exact List.suffix_cons vlen r2
              exact s1.trans ((List.drop_suffix vlen r2).trans
                (s2.trans ((List.drop_suffix klen rest).trans
                  (List.suffix_cons klen rest))))
          · exact absurd h (by simp)
      · exact absurd h (by simp)

theorem parseEntries_suffix :
    ∀ (n : Nat) {l : List Nat} {esr : List Entry × List Nat},
      parseEntries n l = some esr → esr.2 <:+ l := by
  intro n
  induction n with
  | zero =>
      intro l esr h
      rw [parseEntries_zero] at h
      cases h
      exact List.suffix_refl l
  | succ m ih =>
      intro l esr h
      rw [parseEntries_succ] at h
      rw [Option.bind_eq_some] at h
      obtain ⟨er, hpe, h2⟩ := h
      rw [Option.bind_eq_some] at h2
      obtain ⟨esr2, hps, h3⟩ := h2
      have her : esr.2 = esr2.2 := by
        cases h3
        rfl
      rw [her]
      exact (ih hps).trans (parseEntry_suffix hpe)

theorem sum_set_add :
    ∀ (l : List Nat) (i x y : Nat), l[i]? = some x →
      (l.set i y).sum + x = l.sum + y := by
  intro l
  induction l with
  | nil =>
      intro i x y h
      simp at h
  | cons a rest ih =>
      intro i x y h
      cases i with
      | zero =>
          simp at h
          subst h
          simp [List.set]
          omega
      | succ n =>
          simp at h
          have := ih n x y h
          simp [List.set]
          omega

theorem mod_ne_of_flip {S S2 x y M : Nat} (hx : x < M) (hy : y < M)
    (hne : y ≠ x) (hsum : S2 + x = S + y) : S2 % M ≠ S % M := by
  intro he
  have h1 : S2 ≡ S [MOD M] := he
  have h2 : S2 + x ≡ S + x [MOD M] := h1.add_right x
  rw [hsum] at h2
  have h3 : y ≡ x [MOD M] := Nat.ModEq.add_left_cancel' S h2
  have h4 : y % M = x % M := h3
  rw [Nat.mod_eq_of_lt hy, Nat.mod_eq_of_lt hx] at h4
  exact hne h4

/-- Corrupting any single position of the record region defeats the
checksum (or the structural parse) and the whole file is rejected. -/
theorem parseFile_flip_none (n : Nat) (recs : List Nat) (i x y : Nat)
    (hx : recs[i]? = some x) (hxM : x < 2 ^ 32) (hyM : y < 2 ^ 32) (hne : y ≠ x) :
    parseFile (MAGIC :: VERSION :: 0 :: n :: (recs.set i y ++ [checksum recs])) = none := by
  simp only [parseFile]
  simp only [if_true]
  cases hpe : parseEntries n (recs.set i y ++ [checksum recs]) with
  | none => rfl
  | some pr =>
      obtain ⟨es2, rem⟩ := pr
      match rem with
      | [] => rfl
      | r :: r2 :: tl => rfl
      | [r] =>
          have hsuf := parseEntries_suffix n hpe
          simp only at hsuf
          obtain ⟨p, hp⟩ := hsuf
          have hr : some r = some (checksum recs) := by
            calc some r = (p ++ [r]).getLast? := (List.getLast?_concat p).symm
              _ = (recs.set i y ++ [checksum recs]).getLast? := by rw [hp]
              _ = some (checksum recs) := List.getLast?_concat _
          have hr2 : r = checksum recs := by
            injection hr
          subst hr2
          have hdl : (recs.set i y ++ [checksum recs]).dropLast = recs.set i y := by
            simp
          rw [hdl]
          have hneq : checksum recs ≠ checksum (recs.set i y) := by
            simp only [checksum]
            exact (mod_ne_of_flip hxM hyM hne (sum_set_add recs i x y hx)).symm
          show (if checksum recs = checksum (recs.set i y) then some es2 else none) = none
          rw [if_neg hneq]

end RelCache

/-- C3: loading the file produced by `save` into an empty bucket succeeds
and yields only pairs that were resident in the original bucket, each value
byte-for-byte equal to the original; the round trip alters no value. -/
theorem c3_save_load_roundtrip :
    ∀ (cfg : RelCache.Config) (b : RelCache.Bucket),
      (RelCache.load cfg (RelCache.save b) RelCache.Bucket.empty).1 = true ∧
      ∀ k v, RelCache.pairResident k v
          (RelCache.load cfg (RelCache.save b) RelCache.Bucket.empty).2 →
        RelCache.pairResident k v b := by
  intro cfg b
  have hpf := RelCache.parseFile_save b
  constructor
  · simp [RelCache.load, hpf]
  · intro k v hp
    simp only [RelCache.load, hpf] at hp
    rcases RelCache.loadEntries_pair_mem cfg _ RelCache.Bucket.empty k v hp with
      ⟨ne, hne, hnk, hnv⟩ | hres
    · obtain ⟨e0, he0, hmap⟩ := List.mem_map.mp hne
      have hsm := (RelCache.savedEntries_mem b e0).mp he0
      refine ⟨e0, hsm.1, ?_, ?_⟩
      · rw [← hnk, ← hmap]
        rfl
      · rw [← hnv, ← hmap]
        rfl
    · obtain ⟨xx, hxx, -, -⟩ := hres
      simp [RelCache.Bucket.empty, RelCache.Bucket.entries] at hxx

/-- Witness for C3: a one-entry bucket round-trips; the restored pair is a
pair of the original. -/
theorem c3_save_load_roundtrip_witness :
    (RelCache.load ⟨10, 8, 10, 0⟩
      (RelCache.save (RelCache.Bucket.mk [] [⟨[1], [5], 1, 1⟩] ⟨0, 0⟩))
      RelCache.Bucket.empty).1 = true ∧
    RelCache.pairResident [1] [5]
      (RelCache.load ⟨10, 8, 10, 0⟩
        (RelCache.save (RelCache.Bucket.mk [] [⟨[1], [5], 1, 1⟩] ⟨0, 0⟩))
        RelCache.Bucket.empty).2 ∧
    RelCache.pairResident [1] [5] (RelCache.Bucket.mk [] [⟨[1], [5], 1, 1⟩] ⟨0, 0⟩) := by
  refine ⟨(c3_save_load_roundtrip ⟨10, 8, 10, 0⟩ _).1, by decide, ?_⟩
  exact (c3_save_load_roundtrip ⟨10, 8, 10, 0⟩ _).2 [1] [5] (by decide)

/-- C4: a snapshot file that fails validation — wrong header, any record
whose length fields are inconsistent with the remaining stream, or a
checksum mismatch such as a single flipped byte in the record region —
is rejected as a whole: `load` reports failure and populates zero entries,
never a partial set, and the failure is an ordinary return value. -/
theorem c4_corrupt_snapshot_rejected :
    (∀ (cfg : RelCache.Config) (f : List Nat) (b : RelCache.Bucket),
      (RelCache.load cfg f b).1 = false → (RelCache.load cfg f b).2 = b) ∧
    (∀ (cfg : RelCache.Config) (m ver c n : Nat) (rest : List Nat) (b : RelCache.Bucket),
      RelCache.parseEntries n rest = none →
      RelCache.load cfg (m :: ver :: c :: n :: rest) b = (false, b)) ∧
    (∀ (cfg : RelCache.Config) (b bkt : RelCache.Bucket) (i x y : Nat),
      (RelCache.serializeEntries (RelCache.savedEntries b))[i]? = some x →
      x < 2 ^ 32 → y < 2 ^ 32 → y ≠ x →
      RelCache.load cfg (RelCache.MAGIC :: RelCache.VERSION :: 0 ::
        (RelCache.savedEntries b).length ::
        ((RelCache.serializeEntries (RelCache.savedEntries b)).set i y ++
          [RelCache.checksum (RelCache.serializeEntries (RelCache.savedEntries b))])) bkt =
        (false, bkt)) := by
  refine ⟨?_, ?_, ?_⟩
  · intro cfg f b h
    unfold RelCache.load at h ⊢
    cases hpf : RelCache.parseFile f with
    | none => rfl
    | some es =>
        rw [hpf] at h
        simp at h
  · intro cfg m ver c n rest b hpe
    by_cases hm : m = RelCache.MAGIC
    · by_cases hv : ver = RelCache.VERSION
      · simp [RelCache.load, RelCache.parseFile, hm, hv, hpe]
      · simp [RelCache.load, RelCache.parseFile, hm, hv]
    · simp [RelCache.load, RelCache.parseFile, hm]
  · intro cfg b bkt i x y hx hxM hyM hne
    unfold RelCache.load
    rw [RelCache.parseFile_flip_none _ _ i x y hx hxM hyM hne]

/-- Witness for C4: flipping the first record byte of a concrete saved file
(from 1 to 2) makes `load` fail and leave the target bucket empty; an empty
file is likewise rejected without mutation. -/
theorem c4_corrupt_snapshot_rejected_witness :
    ((RelCache.serializeEntries (RelCache.savedEntries
        (RelCache.Bucket.mk [] [⟨[1], [5], 1, 1⟩] ⟨0, 0⟩)))[0]? = some 1) ∧
    (RelCache.load ⟨10, 8, 10, 0⟩ (RelCache.MAGIC :: RelCache.VERSION :: 0 ::
        (RelCache.savedEntries (RelCache.Bucket.mk [] [⟨[1], [5], 1, 1⟩] ⟨0, 0⟩)).length ::
        ((RelCache.serializeEntries (RelCache.savedEntries
            (RelCache.Bucket.mk [] [⟨[1], [5], 1, 1⟩] ⟨0, 0⟩))).set 0 2 ++
          [RelCache.checksum (RelCache.serializeEntries (RelCache.savedEntries
            (RelCache.Bucket.mk [] [⟨[1], [5], 1, 1⟩] ⟨0, 0⟩)))]))
        RelCache.Bucket.empty = (false, RelCache.Bucket.empty)) ∧
    ((RelCache.load ⟨10, 8, 10, 0⟩ [] RelCache.Bucket.empty).1 = false →
      (RelCache.load ⟨10, 8, 10, 0⟩ [] RelCache.Bucket.empty).2 = RelCache.Bucket.empty) := by
  refine ⟨by decide, ?_, ?_⟩
  · exact c4_corrupt_snapshot_rejected.2.2 ⟨10, 8, 10, 0⟩ _ RelCache.Bucket.empty 0 1 2
      (by decide) (by decide) (by decide) (by decide)
  · exact c4_corrupt_snapshot_rejected.1 ⟨10, 8, 10, 0⟩ [] RelCache.Bucket.empty

namespace RelCache

/-- The accumulated frequency an overwrite of the key preserves. -/
def oldFreqOf (k : List Nat) (b : Bucket) : Nat :=
  match lookupEntry k b with
  | some e => e.frequency
  | none => 0

theorem set_eq (cfg : Config) (k v : List Nat) (b : Bucket) :
    Bucket.set cfg k v b =
      if cfg.capacity < v.length then b
      else
        { probation := (evictLog cfg.capacity
            (eraseKey k b.probation ++ [⟨k, v, v.length, oldFreqOf k b⟩])
            (eraseKey k b.prot)).1,
          prot := (evictLog cfg.capacity
            (eraseKey k b.probation ++ [⟨k, v, v.length, oldFreqOf k b⟩])
            (eraseKey k b.prot)).2.1,
          stats := b.stats } := rfl

/-- With the byte bound already satisfied the eviction loop does nothing. -/
theorem evictLog_of_le {cap : Nat} {p q : List Entry}
    (h : segSize p + segSize q ≤ cap) : evictLog cap p q = (p, q, []) := by
  unfold evictLog
  rw [evictFuel_succ, if_pos h]

/-- With the target already satisfied the demotion loop does nothing. -/
theorem demoteUntil_of_le {t : Nat} {p q : List Entry}
    (h : segSize q ≤ t) : demoteUntil t p q = (p, q) := by
  unfold demoteUntil
  rw [demoteFuel_succ, if_pos h]

theorem eraseKey_eq_erase {k : List Nat} {l : List Entry} {e : Entry}
    (h : l.find? (fun x => decide (x.key = k)) = some e) :
    eraseKey k l = l.erase e := by
  induction l with
  | nil => simp at h
  | cons a rest ih =>
      by_cases ha : a.key = k
      · rw [List.find?_cons_of_pos _ (by simp [ha])] at h
        cases h
        simp [eraseKey, ha, List.erase_cons_head]
      · rw [List.find?_cons_of_neg _ (by simp [ha])] at h
        have hne : a ≠ e := by
          intro hae
          exact ha (hae ▸ find?_key_eq h)
        rw [List.erase_cons_tail]
        · simp only [eraseKey, if_neg ha]
          rw [ih h]
        · simp [hne]

theorem eraseKey_of_forall_ne {k : List Nat} {l : List Entry}
    (h : ∀ x ∈ l, x.key ≠ k) : eraseKey k l = l := by
  induction l with
  | nil => rfl
  | cons a rest ih =>
      simp only [eraseKey, if_neg (h a (List.mem_cons_self a rest))]
      rw [ih (fun x hx => h x (List.mem_cons_of_mem a hx))]

theorem eraseKey_sublist (k : List Nat) (l : List Entry) :
    List.Sublist (eraseKey k l) l := by
  induction l with
  | nil => simp [eraseKey]
  | cons a rest ih =>
      by_cases ha : a.key = k
      · simp only [eraseKey, if_pos ha]
        exact List.sublist_cons_self a rest
      · simp only [eraseKey, if_neg ha]
        exact List.Sublist.cons₂ a ih

theorem keys_eraseKey_not_mem {k : List Nat} {l : List Entry}
    (hnd : (l.map Entry.key).Nodup) : k ∉ (eraseKey k l).map Entry.key := by
  induction l with
  | nil => simp [eraseKey]
  | cons a rest ih =>
      simp only [List.map_cons, List.nodup_cons] at hnd
      by_cases ha : a.key = k
      · simp only [eraseKey, if_pos ha]
        rw [← ha]
        exact hnd.1
      · simp only [eraseKey, if_neg ha, List.map_cons, List.mem_cons]
        intro hc
        rcases hc with hc | hc
        · exact ha hc.symm
        · exact ih hnd.2 hc

theorem mem_eraseKey_of_key_ne {k : List Nat} {l : List Entry} {x : Entry}
    (hx : x ∈ l) (hne : x.key ≠ k) : x ∈ eraseKey k l := by
  induction l with
  | nil => simp at hx
  | cons a rest ih =>
      rcases List.mem_cons.mp hx with hx1 | hx1
      · subst hx1
        simp only [eraseKey, if_neg hne]
        exact List.mem_cons_self x _
      · by_cases ha : a.key = k
        · simp only [eraseKey, if_pos ha]
          exact hx1
        · simp only [eraseKey, if_neg ha]
          exact List.mem_cons_of_mem a (ih hx1)

/-- A `get` is either a pure miss or returns the value of the unique entry
it found, bumping that entry's frequency. -/
theorem get_cases (cfg : Config) (k : List Nat) (b : Bucket) :
    ((Bucket.get cfg k b).1 = none ∧
      (Bucket.get cfg k b).2.probation = b.probation ∧
      (Bucket.get cfg k b).2.prot = b.prot ∧
      (Bucket.get cfg k b).2.stats.hits = b.stats.hits ∧
      (Bucket.get cfg k b).2.stats.misses = b.stats.misses + 1 ∧
      (∀ x ∈ b.entries, x.key ≠ k)) ∨
    (∃ e ∈ b.entries, e.key = k ∧
      (Bucket.get cfg k b).1 = some e.value ∧
      List.Perm (Bucket.get cfg k b).2.entries
        ({ e with frequency := e.frequency + 1 } :: b.entries.erase e) ∧
      (Bucket.get cfg k b).2.stats.hits = b.stats.hits + 1 ∧
      (Bucket.get cfg k b).2.stats.misses = b.stats.misses) := by
  unfold Bucket.get
  cases hp : b.probation.find? (fun e => decide (e.key = k)) with
  | some e =>
      right
      have hmem : e ∈ b.probation := find?_key_mem hp
      refine ⟨e, List.mem_append_left _ hmem, find?_key_eq hp, rfl, ?_, rfl, rfl⟩
      simp only [Bucket.entries]
      have hA := demoteUntil_append_perm cfg.protTarget (eraseKey k b.probation)
        (b.prot ++ [{ e with frequency := e.frequency + 1 }])
      have hB : List.Perm
          (eraseKey k b.probation ++ (b.prot ++ [{ e with frequency := e.frequency + 1 }]))
          ({ e with frequency := e.frequency + 1 } :: (eraseKey k b.probation ++ b.prot)) := by
        rw [← List.append_assoc]
        exact List.perm_append_singleton _ _
      refine (hA.trans hB).trans ?_
      rw [eraseKey_eq_erase hp, List.erase_append_left _ hmem]
  | none =>
    cases hq : b.prot.find? (fun e => decide (e.key = k)) with
    | some e =>
        right
        have hmem : e ∈ b.prot := find?_key_mem hq
        refine ⟨e, List.mem_append_right _ hmem, find?_key_eq hq, rfl, ?_, rfl, rfl⟩
        simp only [Bucket.entries]
        have hB : List.Perm
            (b.probation ++ (eraseKey k b.prot ++ [{ e with frequency := e.frequency + 1 }]))
            ({ e with frequency := e.frequency + 1 } :: (b.probation ++ eraseKey k b.prot)) := by
          rw [← List.append_assoc]
          exact List.perm_append_singleton _ _
        refine hB.trans ?_
        have hnp : e ∉ b.probation := by
          intro hc
          have := List.find?_eq_none.mp hp e hc
          simp [find?_key_eq hq] at this
        rw [eraseKey_eq_erase hq, List.erase_append_right _ hnp]
    | none =>
        left
        refine ⟨rfl, rfl, rfl, rfl, rfl, ?_⟩
        intro x hx
        rcases List.mem_append.mp hx with h1 | h1
        · have := List.find?_eq_none.mp hp x h1
          simpa using this
        · have := List.find?_eq_none.mp hq x h1
          simpa using this

end RelCache

namespace RelCache

/-- The key and value of an entry as a pair. -/
def pairOf (e : Entry) : List Nat × List Nat := (e.key, e.value)

/-- Invariant tying a bucket to a fixed key population: resident keys are
unique, `raw_size` is honest, and every resident pair belongs to the
population. -/
def GoodB (kvs : List (List Nat × List Nat)) (b : Bucket) : Prop :=
  (b.entries.map Entry.key).Nodup ∧
  (∀ e ∈ b.entries, e.raw_size = e.value.length) ∧
  (∀ e ∈ b.entries, (e.key, e.value) ∈ kvs)

theorem subperm_sum_le {l1 l2 : List Nat} (h : List.Subperm l1 l2) :
    l1.sum ≤ l2.sum := by
  obtain ⟨w, hp, hs⟩ := h
  calc l1.sum = w.sum := hp.sum_eq.symm
    _ ≤ l2.sum := hs.sum_le_sum (by simp)

/-- Entries with unique keys, honest sizes and pairs drawn from the
population weigh at most the whole population. -/
theorem segSize_le_sum {kvs : List (List Nat × List Nat)} {l : List Entry}
    (hnd : (l.map Entry.key).Nodup)
    (hhon : ∀ e ∈ l, e.raw_size = e.value.length)
    (hcont : ∀ e ∈ l, (e.key, e.value) ∈ kvs) :
    segSize l ≤ (kvs.map fun p => p.2.length).sum := by
  have h1 : segSize l = ((l.map pairOf).map fun p => p.2.length).sum := by
    simp only [segSize, List.map_map]
    congr 1
    exact List.map_congr_left (fun e he => by simp [pairOf, Function.comp, hhon e he])
  rw [h1]
  have hpnd : (l.map pairOf).Nodup := by
    refine List.Nodup.of_map Prod.fst ?_
    have heq : ((l.map pairOf).map Prod.fst) = l.map Entry.key := by
      simp [List.map_map, pairOf, Function.comp]
    rw [heq]
    exact hnd
  have hsub : (l.map pairOf) ⊆ kvs := by
    intro p hp
    obtain ⟨e, he, hpe⟩ := List.mem_map.mp hp
    rw [← hpe]
    exact hcont e he
  have hsp : List.Subperm (l.map pairOf) kvs := List.Nodup.subperm hpnd hsub
  refine subperm_sum_le ?_
  obtain ⟨w, hpw, hsw⟩ := hsp
  exact ⟨w.map _, hpw.map _, hsw.map _⟩

/-- When the bucket still fits after the insertion, `set` is a plain
overwrite-insert at the Probation tail. -/
theorem set_of_fit (cfg : Config) (k v : List Nat) (b : Bucket)
    (hv : ¬ cfg.capacity < v.length)
    (hfit : segSize (eraseKey k b.probation) + v.length +
      segSize (eraseKey k b.prot) ≤ cfg.capacity) :
    (Bucket.set cfg k v b).probation =
      eraseKey k b.probation ++ [⟨k, v, v.length, oldFreqOf k b⟩] ∧
    (Bucket.set cfg k v b).prot = eraseKey k b.prot ∧
    (Bucket.set cfg k v b).stats = b.stats := by
  rw [set_eq, if_neg hv]
  have hle : segSize (eraseKey k b.probation ++ [⟨k, v, v.length, oldFreqOf k b⟩]) +
      segSize (eraseKey k b.prot) ≤ cfg.capacity := by
    simp only [segSize_append, segSize_cons, segSize_nil]
    omega
  rw [evictLog_of_le hle]
  exact ⟨rfl, rfl, rfl⟩

end RelCache

namespace RelCache

/-- Under unique keys, a `get` of a resident pair returns exactly its
value. -/
theorem get_hit_value (cfg : Config) {k v : List Nat} {b : Bucket}
    (hnd : (b.entries.map Entry.key).Nodup) (hres : pairResident k v b) :
    (Bucket.get cfg k b).1 = some v := by
  obtain ⟨x, hx, hxk, hxv⟩ := hres
  rcases get_cases cfg k b with ⟨_, _, _, _, _, hnone⟩ | ⟨e, he, hek, hv1, _, _, _⟩
  · exact absurd hxk (hnone x hx)
  · have hxe : x = e := List.inj_on_of_nodup_map hnd hx he (by rw [hxk, hek])
    rw [hv1, ← hxv, hxe]

/-- A `get` preserves the population invariant and every resident pair. -/
theorem get_good (cfg : Config) (k : List Nat)
    {kvs : List (List Nat × List Nat)} {b : Bucket} (hg : GoodB kvs b) :
    GoodB kvs (Bucket.get cfg k b).2 ∧
    (∀ k2 v2, pairResident k2 v2 b → pairResident k2 v2 (Bucket.get cfg k b).2) := by
  obtain ⟨hnd, hhon, hcont⟩ := hg
  have hkeys := get_keys_perm cfg k b
  rcases get_cases cfg k b with ⟨_, hpr, hpt, _, _, _⟩ | ⟨e, he, hek, _, hperm, _, _⟩
  · have hent : (Bucket.get cfg k b).2.entries = b.entries := by
      simp [Bucket.entries, hpr, hpt]
    rw [GoodB, hent]
    exact ⟨⟨hnd, hhon, hcont⟩, fun k2 v2 hres => by
      simpa [pairResident, hent] using hres⟩
  · constructor
    · refine ⟨?_, ?_, ?_⟩
      · exact (hkeys.nodup_iff).mpr hnd
      · intro x hx
        have := hperm.mem_iff.mp hx
        rcases List.mem_cons.mp this with h1 | h1
        · rw [h1]
          exact hhon e he
        · exact hhon x (List.mem_of_mem_erase h1)
      · intro x hx
        have := hperm.mem_iff.mp hx
        rcases List.mem_cons.mp this with h1 | h1
        · rw [h1]
          exact hcont e he
        · exact hcont x (List.mem_of_mem_erase h1)
    · intro k2 v2 ⟨x, hx, hxk, hxv⟩
      by_cases hxe : x = e
      · refine ⟨{ e with frequency := e.frequency + 1 },
          hperm.mem_iff.mpr (List.mem_cons_self _ _), ?_, ?_⟩
        · rw [← hxk, hxe]
        · rw [← hxv, hxe]
      · refine ⟨x, hperm.mem_iff.mpr
          (List.mem_cons_of_mem _ ((List.mem_erase_of_ne hxe).mpr hx)), hxk, hxv⟩

/-- With population keys unique, two population pairs sharing a key are
equal. -/
theorem kvs_value_unique {kvs : List (List Nat × List Nat)}
    (hknd : (kvs.map Prod.fst).Nodup) {k a c : List Nat}
    (h1 : (k, a) ∈ kvs) (h2 : (k, c) ∈ kvs) : a = c := by
  have := List.inj_on_of_nodup_map hknd h1 h2 rfl
  cases this
  rfl

/-- A `set` of a population pair in a fitting population preserves the
invariant, makes the pair resident, keeps every other resident population
pair resident, and leaves the statistics alone. -/
theorem set_good (cfg : Config) {kvs : List (List Nat × List Nat)}
    {k v : List Nat} {b : Bucket}
    (hg : GoodB kvs b) (hkv : (k, v) ∈ kvs)
    (hknd : (kvs.map Prod.fst).Nodup)
    (hsum : (kvs.map fun p => p.2.length).sum ≤ cfg.capacity) :
    GoodB kvs (Bucket.set cfg k v b) ∧
    pairResident k v (Bucket.set cfg k v b) ∧
    (∀ k2 v2, pairResident k2 v2 b → pairResident k2 v2 (Bucket.set cfg k v b)) ∧
    (Bucket.set cfg k v b).stats = b.stats := by
  obtain ⟨hnd, hhon, hcont⟩ := hg
  have hvlen : v.length ≤ cfg.capacity := by
    refine le_trans ?_ hsum
    have : v.length ∈ kvs.map fun p => p.2.length := by
      exact List.mem_map_of_mem _ hkv
    exact List.single_le_sum (by simp) _ this
  have hv : ¬ cfg.capacity < v.length := not_lt.mpr hvlen
  have hndsplit := List.nodup_append.mp (by
    simpa [Bucket.entries, List.map_append] using hnd)
  obtain ⟨hndp, hndq, hdisj⟩ := hndsplit
  -- the combined entry list after the overwrite-insert
  have hperm : List.Perm
      ((eraseKey k b.probation ++ [(⟨k, v, v.length, oldFreqOf k b⟩ : Entry)]) ++
        eraseKey k b.prot)
      ((⟨k, v, v.length, oldFreqOf k b⟩ : Entry) ::
        (eraseKey k b.probation ++ eraseKey k b.prot)) := by
    rw [List.append_assoc]
    exact List.perm_middle
  have hsubp := (eraseKey_sublist k b.probation).map Entry.key
  have hsubq := (eraseKey_sublist k b.prot).map Entry.key
  have hndE : (((eraseKey k b.probation ++ [(⟨k, v, v.length, oldFreqOf k b⟩ : Entry)]) ++
      eraseKey k b.prot).map Entry.key).Nodup := by
    refine ((hperm.map Entry.key).nodup_iff).mpr ?_
    simp only [List.map_cons, List.map_append, List.nodup_cons]
    constructor
    · intro hc
      rcases List.mem_append.mp hc with hc1 | hc1
      · exact keys_eraseKey_not_mem hndp hc1
      · exact keys_eraseKey_not_mem hndq hc1
    · refine List.Nodup.sublist (List.Sublist.append hsubp hsubq) ?_
      simpa [List.map_append] using (by
        simpa [Bucket.entries, List.map_append] using hnd : 
        ((b.probation.map Entry.key) ++ (b.prot.map Entry.key)).Nodup)
  have hhonE : ∀ e ∈ ((eraseKey k b.probation ++
      [(⟨k, v, v.length, oldFreqOf k b⟩ : Entry)]) ++ eraseKey k b.prot),
      e.raw_size = e.value.length := by
    intro e hee
    rcases List.mem_cons.mp ((hperm.mem_iff).mp hee) with h1 | h1
    · rw [h1]
    · rcases List.mem_append.mp h1 with h2 | h2
      · exact hhon e (List.mem_append_left _ (eraseKey_mem e h2))
      · exact hhon e (List.mem_append_right _ (eraseKey_mem e h2))
  have hcontE : ∀ e ∈ ((eraseKey k b.probation ++
      [(⟨k, v, v.length, oldFreqOf k b⟩ : Entry)]) ++ eraseKey k b.prot),
      (e.key, e.value) ∈ kvs := by
    intro e hee
    rcases List.mem_cons.mp ((hperm.mem_iff).mp hee) with h1 | h1
    · rw [h1]
      exact hkv
    · rcases List.mem_append.mp h1 with h2 | h2
      · exact hcont e (List.mem_append_left _ (eraseKey_mem e h2))
      · exact hcont e (List.mem_append_right _ (eraseKey_mem e h2))
  have hfitE : segSize (eraseKey k b.probation) + v.length +
      segSize (eraseKey k b.prot) ≤ cfg.capacity := by
    have := segSize_le_sum hndE hhonE hcontE
    simp only [segSize_append, segSize_cons, segSize_nil] at this
    omega
  obtain ⟨hprob, hprot, hstats⟩ := set_of_fit cfg k v b hv hfitE
  have hentries : (Bucket.set cfg k v b).entries =
      (eraseKey k b.probation ++ [(⟨k, v, v.length, oldFreqOf k b⟩ : Entry)]) ++
        eraseKey k b.prot := by
    simp [Bucket.entries, hprob, hprot]
  refine ⟨⟨by rw [hentries]; exact hndE, by rw [hentries]; exact hhonE,
    by rw [hentries]; exact hcontE⟩, ?_, ?_, hstats⟩
  · refine ⟨⟨k, v, v.length, oldFreqOf k b⟩, ?_, rfl, rfl⟩
    rw [hentries]
    exact List.mem_append_left _ (List.mem_append_right _ (List.mem_singleton_self _))
  · intro k2 v2 ⟨x, hx, hxk, hxv⟩
    by_cases hxkey : x.key = k
    · have hxv2 : x.value = v :=
        kvs_value_unique hknd (hxkey ▸ hcont x hx) hkv
      refine ⟨⟨k, v, v.length, oldFreqOf k b⟩, ?_, ?_, ?_⟩
      · rw [hentries]
        exact List.mem_append_left _ (List.mem_append_right _ (List.mem_singleton_self _))
      · rw [← hxk, hxkey]
      · rw [← hxv, hxv2]
    · refine ⟨x, ?_, hxk, hxv⟩
      rw [hentries]
      rcases List.mem_append.mp hx with h1 | h1
      · exact List.mem_append_left _
          (List.mem_append_left _ (mem_eraseKey_of_key_ne h1 hxkey))
      · exact List.mem_append_right _ (mem_eraseKey_of_key_ne h1 hxkey)

end RelCache

namespace RelCache

/-- One pass of the benchmark's sequential multi-key scan: each key is
looked up and, on a miss, filled in from the backing store with its fixed
value. -/
def scanPass (cfg : Config) : List (List Nat × List Nat) → Bucket → Bucket
  | [], b => b
  | (k, v) :: rest, b =>
    match (Bucket.get cfg k b).1 with
    | some _ => scanPass cfg rest (Bucket.get cfg k b).2
    | none => scanPass cfg rest (Bucket.set cfg k v (Bucket.get cfg k b).2)

def iterPass (cfg : Config) (kvs : List (List Nat × List Nat)) : Nat → Bucket → Bucket
  | 0, b => b
  | n + 1, b => iterPass cfg kvs n (scanPass cfg kvs b)

theorem scanPass_cons (cfg : Config) (k v : List Nat)
    (rest : List (List Nat × List Nat)) (b : Bucket) :
    scanPass cfg ((k, v) :: rest) b =
      (match (Bucket.get cfg k b).1 with
      | some _ => scanPass cfg rest (Bucket.get cfg k b).2
      | none => scanPass cfg rest (Bucket.set cfg k v (Bucket.get cfg k b).2)) := rfl

theorem scanPass_cons_hit {cfg : Config} {k v : List Nat}
    {rest : List (List Nat × List Nat)} {b : Bucket} {v0 : List Nat}
    (h : (Bucket.get cfg k b).1 = some v0) :
    scanPass cfg ((k, v) :: rest) b = scanPass cfg rest (Bucket.get cfg k b).2 := by
  rw [scanPass_cons, h]

theorem scanPass_cons_miss {cfg : Config} {k v : List Nat}
    {rest : List (List Nat × List Nat)} {b : Bucket}
    (h : (Bucket.get cfg k b).1 = none) :
    scanPass cfg ((k, v) :: rest) b =
      scanPass cfg rest (Bucket.set cfg k v (Bucket.get cfg k b).2) := by
  rw [scanPass_cons, h]

/-- A scan pass keeps the invariant, keeps every resident pair resident,
and makes every scanned pair resident. -/
theorem scanPass_full (cfg : Config) {kvs : List (List Nat × List Nat)}
    (hknd : (kvs.map Prod.fst).Nodup)
    (hsum : (kvs.map fun p => p.2.length).sum ≤ cfg.capacity) :
    ∀ (todo : List (List Nat × List Nat)) (b : Bucket),
      (∀ p ∈ todo, p ∈ kvs) → GoodB kvs b →
      GoodB kvs (scanPass cfg todo b) ∧
      (∀ k2 v2, pairResident k2 v2 b → pairResident k2 v2 (scanPass cfg todo b)) ∧
      (∀ p ∈ todo, pairResident p.1 p.2 (scanPass cfg todo b)) := by
  intro todo
  induction todo with
  | nil =>
      intro b _ hg
      exact ⟨hg, fun k2 v2 h => h, by simp⟩
  | cons p rest ih =>
      obtain ⟨k, v⟩ := p
      intro b hcov hg
      have hkv : (k, v) ∈ kvs := hcov (k, v) (List.mem_cons_self _ _)
      have hrest : ∀ q ∈ rest, q ∈ kvs := fun q hq => hcov q (List.mem_cons_of_mem _ hq)
      have hgget := get_good cfg k hg
      cases hr : (Bucket.get cfg k b).1 with
      | some v0 =>
          rw [scanPass_cons_hit hr]
          have hresb : pairResident k v b := by
            rcases get_cases cfg k b with ⟨h1, _⟩ | ⟨e, he, hek, hv1, _, _, _⟩
            · rw [h1] at hr
              exact absurd hr (by simp)
            · have hv0 : v0 = e.value := by
                rw [hv1] at hr
                injection hr.symm
              have := kvs_value_unique hknd (hek ▸ hg.2.2 e he) hkv
              exact ⟨e, he, hek, this⟩
          have hres' := hgget.2 k v hresb
          obtain ⟨hgf, hpresf, hcovf⟩ := ih (Bucket.get cfg k b).2 hrest hgget.1
          refine ⟨hgf, fun k2 v2 h => hpresf k2 v2 (hgget.2 k2 v2 h), ?_⟩
          intro q hq
          rcases List.mem_cons.mp hq with hq1 | hq1
          · rw [hq1]
            exact hpresf k v hres'
          · exact hcovf q hq1
      | none =>
          rw [scanPass_cons_miss hr]
          have hsg := set_good cfg hgget.1 hkv hknd hsum
          obtain ⟨hgf, hpresf, hcovf⟩ := ih _ hrest hsg.1
          refine ⟨hgf, ?_, ?_⟩
          · intro k2 v2 h
            exact hpresf k2 v2 (hsg.2.2.1 k2 v2 (hgget.2 k2 v2 h))
          · intro q hq
            rcases List.mem_cons.mp hq with hq1 | hq1
            · rw [hq1]
              exact hpresf k v hsg.2.1
            · exact hcovf q hq1

/-- When every scanned pair is already resident, a pass hits on every key,
records no miss, and keeps everything resident. -/
theorem scanPass_hits (cfg : Config) {kvs : List (List Nat × List Nat)}
    (hknd : (kvs.map Prod.fst).Nodup) :
    ∀ (todo : List (List Nat × List Nat)) (b : Bucket),
      GoodB kvs b → (∀ p ∈ todo, pairResident p.1 p.2 b) →
      (scanPass cfg todo b).stats.hits = b.stats.hits + todo.length ∧
      (scanPass cfg todo b).stats.misses = b.stats.misses ∧
      GoodB kvs (scanPass cfg todo b) ∧
      (∀ k2 v2, pairResident k2 v2 b → pairResident k2 v2 (scanPass cfg todo b)) := by
  intro todo
  induction todo with
  | nil =>
      intro b hg _
      exact ⟨rfl, rfl, hg, fun k2 v2 h => h⟩
  | cons p rest ih =>
      obtain ⟨k, v⟩ := p
      intro b hg hres
      have hresk : pairResident k v b := hres (k, v) (List.mem_cons_self _ _)
      have hr := get_hit_value cfg hg.1 hresk
      rw [scanPass_cons_hit hr]
      have hgget := get_good cfg k hg
      have hstats : (Bucket.get cfg k b).2.stats.hits = b.stats.hits + 1 ∧
          (Bucket.get cfg k b).2.stats.misses = b.stats.misses := by
        rcases get_cases cfg k b with ⟨h1, _⟩ | ⟨e, _, _, _, _, hh, hm⟩
        · rw [h1] at hr
          exact absurd hr (by simp)
        · exact ⟨hh, hm⟩
      have hres' : ∀ q ∈ rest, pairResident q.1 q.2 (Bucket.get cfg k b).2 :=
        fun q hq => hgget.2 q.1 q.2 (hres q (List.mem_cons_of_mem _ hq))
      obtain ⟨hh, hm, hgf, hpresf⟩ := ih (Bucket.get cfg k b).2 hgget.1 hres'
      refine ⟨?_, ?_, hgf, ?_⟩
      · rw [hh, hstats.1]
        simp [List.length_cons]
        omega
      · rw [hm, hstats.2]
      · intro k2 v2 h
        exact hpresf k2 v2 (hgget.2 k2 v2 h)

theorem iterPass_keeps (cfg : Config) {kvs : List (List Nat × List Nat)}
    (hknd : (kvs.map Prod.fst).Nodup)
    (hsum : (kvs.map fun p => p.2.length).sum ≤ cfg.capacity) :
    ∀ (n : Nat) (b : Bucket), GoodB kvs b →
      (∀ p ∈ kvs, pairResident p.1 p.2 b) →
      GoodB kvs (iterPass cfg kvs n b) ∧
      (∀ p ∈ kvs, pairResident p.1 p.2 (iterPass cfg kvs n b)) := by
  intro n
  induction n with
  | zero => exact fun b hg hf => ⟨hg, hf⟩
  | succ m ihm =>
      intro b hg hf
      have hstep := scanPass_full cfg hknd hsum kvs b (fun p hp => hp) hg
      exact ihm (scanPass cfg kvs b) hstep.1 (fun p hp => hstep.2.2 p hp)

end RelCache

namespace RelCache

/-- Modelled from the spec: a plain single-segment LRU over the same byte
budget, for comparison.  Head is least recently used; a hit moves the pair
to the tail, an insert appends at the tail and evicts from the head while
over budget. -/
structure LRU where
  items : List (List Nat × List Nat)
  stats : Stats
deriving DecidableEq

def LRU.empty : LRU := ⟨[], ⟨0, 0⟩⟩

def lruSize (l : List (List Nat × List Nat)) : Nat :=
  (l.map fun p => p.2.length).sum

def lruEvict (cap : Nat) : List (List Nat × List Nat) → List (List Nat × List Nat)
  | [] => []
  | p :: rest => if cap < lruSize (p :: rest) then lruEvict cap rest else p :: rest

def eraseKeyPair (k : List Nat) : List (List Nat × List Nat) → List (List Nat × List Nat)
  | [] => []
  | p :: rest => if p.1 = k then rest else p :: eraseKeyPair k rest

def LRU.get (k : List Nat) (s : LRU) : Option (List Nat) × LRU :=
  match s.items.find? (fun p => decide (p.1 = k)) with
  | some p => (some p.2,
      ⟨eraseKeyPair k s.items ++ [p], ⟨s.stats.hits + 1, s.stats.misses⟩⟩)
  | none => (none, ⟨s.items, ⟨s.stats.hits, s.stats.misses + 1⟩⟩)

def LRU.set (cap : Nat) (k v : List Nat) (s : LRU) : LRU :=
  if cap < v.length then s
  else ⟨lruEvict cap (eraseKeyPair k s.items ++ [(k, v)]), s.stats⟩

/-- The same sequential scan against the plain LRU. -/
def lruScanPass (cap : Nat) : List (List Nat × List Nat) → LRU → LRU
  | [], s => s
  | (k, v) :: rest, s =>
    match (LRU.get k s).1 with
    | some _ => lruScanPass cap rest (LRU.get k s).2
    | none => lruScanPass cap rest (LRU.set cap k v (LRU.get k s).2)

end RelCache

/-- C7 counterexample: on a fixed two-key population that exactly fits the
budget, a plain single-segment LRU of the same capacity also hits every
lookup from the second pass on — two hits and zero new misses — so its
steady-state hit ratio on this pattern is 1.0, not the 0 the claim
asserts. -/
theorem c7_counterexample_plain_lru_hits :
    (RelCache.lruScanPass 3 [([1], [2, 2]), ([2], [3])]
      (RelCache.lruScanPass 3 [([1], [2, 2]), ([2], [3])] RelCache.LRU.empty)).stats.hits =
      (RelCache.lruScanPass 3 [([1], [2, 2]), ([2], [3])] RelCache.LRU.empty).stats.hits + 2 ∧
    (RelCache.lruScanPass 3 [([1], [2, 2]), ([2], [3])]
      (RelCache.lruScanPass 3 [([1], [2, 2]), ([2], [3])] RelCache.LRU.empty)).stats.misses =
      (RelCache.lruScanPass 3 [([1], [2, 2]), ([2], [3])] RelCache.LRU.empty).stats.misses ∧
    (RelCache.lruScanPass 3 [([1], [2, 2]), ([2], [3])] RelCache.LRU.empty).stats.misses = 2 := by
  decide

/-- C7 amended: for every fixed key population with distinct keys whose
combined size fits the bucket's capacity, repeating the same sequential
scan converges after the first full pass to a steady state in which every
lookup hits: each later pass adds exactly one hit per key and no miss.
(The comparison in the original claim fails: a plain single-segment LRU of
the same capacity also reaches ratio 1.0 on this fitting pattern.) -/
theorem c7_scan_steady_state :
    ∀ (cfg : RelCache.Config) (kvs : List (List Nat × List Nat)) (n : Nat),
      (kvs.map Prod.fst).Nodup →
      (kvs.map fun p => p.2.length).sum ≤ cfg.capacity →
      (RelCache.scanPass cfg kvs
          (RelCache.iterPass cfg kvs (n + 1) RelCache.Bucket.empty)).stats.hits =
        (RelCache.iterPass cfg kvs (n + 1) RelCache.Bucket.empty).stats.hits + kvs.length ∧
      (RelCache.scanPass cfg kvs
          (RelCache.iterPass cfg kvs (n + 1) RelCache.Bucket.empty)).stats.misses =
        (RelCache.iterPass cfg kvs (n + 1) RelCache.Bucket.empty).stats.misses := by
  intro cfg kvs n hknd hsum
  have hempty : RelCache.GoodB kvs RelCache.Bucket.empty := by
    refine ⟨?_, ?_, ?_⟩ <;> simp [RelCache.Bucket.empty, RelCache.Bucket.entries, RelCache.GoodB]
  have h1 := RelCache.scanPass_full cfg hknd hsum kvs RelCache.Bucket.empty
    (fun p hp => hp) hempty
  have hiter := RelCache.iterPass_keeps cfg hknd hsum n
    (RelCache.scanPass cfg kvs RelCache.Bucket.empty) h1.1 (fun p hp => h1.2.2 p hp)
  have hred : RelCache.iterPass cfg kvs (n + 1) RelCache.Bucket.empty =
      RelCache.iterPass cfg kvs n (RelCache.scanPass cfg kvs RelCache.Bucket.empty) := rfl
  rw [hred]
  have hfin := RelCache.scanPass_hits cfg hknd kvs _ hiter.1 (fun p hp => hiter.2 p hp)
  exact ⟨hfin.1, hfin.2.1⟩

/-- Witness for C7 amended at a concrete fitting population of two keys
under capacity 3: the pass after the first adds two hits and no miss. -/
theorem c7_scan_steady_state_witness :
    ((([([1], [2, 2]), ([2], [3])] : List (List Nat × List Nat)).map Prod.fst).Nodup) ∧
    ((([([1], [2, 2]), ([2], [3])] : List (List Nat × List Nat)).map
      fun p => p.2.length).sum ≤ (3 : Nat)) ∧
    ((RelCache.scanPass ⟨3, 2, 3, 1⟩ [([1], [2, 2]), ([2], [3])]
        (RelCache.iterPass ⟨3, 2, 3, 1⟩ [([1], [2, 2]), ([2], [3])] 1
          RelCache.Bucket.empty)).stats.hits =
      (RelCache.iterPass ⟨3, 2, 3, 1⟩ [([1], [2, 2]), ([2], [3])] 1
        RelCache.Bucket.empty).stats.hits + 2 ∧
    (RelCache.scanPass ⟨3, 2, 3, 1⟩ [([1], [2, 2]), ([2], [3])]
        (RelCache.iterPass ⟨3, 2, 3, 1⟩ [([1], [2, 2]), ([2], [3])] 1
          RelCache.Bucket.empty)).stats.misses =
      (RelCache.iterPass ⟨3, 2, 3, 1⟩ [([1], [2, 2]), ([2], [3])] 1
        RelCache.Bucket.empty).stats.misses) := by
  refine ⟨by decide, by decide, ?_⟩
  exact c7_scan_steady_state ⟨3, 2, 3, 1⟩ [([1], [2, 2]), ([2], [3])] 0
    (by decide) (by decide)
